import Mathlib

/-!
Verification of the static-site post-processing scripts of this repository:
canonical-link injection (`scripts/fix_canonical.py`), tracking-snippet
injection (`tools/inject_metrika.py`), sitemap generation
(`tools/generate_sitemap.py`), RSS generation (`tools/generate_rss.py`)
and base-URL detection (`tools/generate_pages.py`).

Strings are modelled as `List Char`.  The regular expressions the scripts
use are modelled by dedicated matchers whose behaviour follows Python's
`re` module on those concrete patterns: a substitution scans the text left
to right, replaces each (leftmost, non-overlapping) match and resumes
after it; all patterns contain no unanchored backtracking beyond what the
matchers below implement (this is argued pattern by pattern in the
comments).
-/

/-- The characters of a string literal. -/
def s2l (s : String) : List Char := s.data

/-- ASCII lower-casing, the effect of Python's `str.lower`/`(?i)` on the
ASCII texts these scripts handle. -/
def lowerChar (c : Char) : Char :=
  if 'A' ≤ c ∧ c ≤ 'Z' then Char.ofNat (c.toNat + 32) else c

def lowerList (l : List Char) : List Char := l.map lowerChar

/-- `l` starts with `pat` (exact characters). -/
def beginsWith : List Char → List Char → Bool
  | [], _ => true
  | _ :: _, [] => false
  | p :: ps, c :: cs => (p == c) && beginsWith ps cs

/-- `l` starts with `pat` case-insensitively; `pat` is given in lower case. -/
def beginsWithCI : List Char → List Char → Bool
  | [], _ => true
  | _ :: _, [] => false
  | p :: ps, c :: cs => (p == lowerChar c) && beginsWithCI ps cs

/-- `pat` occurs somewhere in `l` (Python's `in` / `re.search` of a literal). -/
def containsSeq (pat : List Char) : List Char → Bool
  | [] => beginsWith pat []
  | c :: cs => beginsWith pat (c :: cs) || containsSeq pat cs

/-- `l` ends with `pat` (Python's `str.endswith`). -/
def seqEnds (pat l : List Char) : Bool :=
  beginsWith pat (l.drop (l.length - pat.length)) && (pat.length ≤ l.length : Bool)

/-- Python regex `\s` (ASCII whitespace, as occurring in these HTML files). -/
def isReWS (c : Char) : Bool :=
  c == ' ' || c == '\t' || c == '\n' || c == '\r' || c == '\x0b' || c == '\x0c'

def isDigitCh (c : Char) : Bool := '0' ≤ c && c ≤ '9'

/-- A single (double or single) quote, the regex class `['"]`. -/
def isQuoteCh (c : Char) : Bool := c == '"' || c == Char.ofNat 39

/-- `[n, n-1, ..., 1]`: the candidate lengths a greedy `+` tries, longest
first (Python backtracking order). -/
def downFrom : Nat → List Nat
  | 0 => []
  | n + 1 => (n + 1) :: downFrom n

/-- Try candidates in order, return the first success. -/
def firstSome (f : Nat → Option (List Char)) : List Nat → Option (List Char)
  | [] => none
  | k :: ks =>
    match f k with
    | some r => some r
    | none => firstSome f ks

namespace FixCanonical

/-!
## scripts/fix_canonical.py

`ensure_canonical(html, canonical_url)`:
1. strip every match of `(?is)<link[^>]+rel=['"]canonical['"][^>]*>`;
2. insert `<link rel="canonical" href="{url}">` + `"\n"` before the first
   match of `(?is)</head\s*>` (when present);
3. rewrite every match of
   `(?is)<meta[^>]+name=['"]robots['"][^>]+content=['"]https?://[^'"]+['"][^>]*>`
   to `<meta name="robots" content="index, follow">`;
4. if no `</head>` was found, prepend the tag + `"\n"` instead.
-/

/-- Split `l` at its first `'>'`: `some (m, r)` with `l = m ++ '>' :: r`
and no `'>'` in `m`.  Every component of the link/meta regexes before the
final literal `>` excludes `'>'`, so a match starting at some position
always ends at the first `'>'` after it; this function finds it. -/
def splitAtGt : List Char → Option (List Char × List Char)
  | [] => none
  | c :: cs =>
    if c = '>' then some ([], cs)
    else
      match splitAtGt cs with
      | some (m, r) => some (c :: m, r)
      | none => none

/-- The regex fragment `rel=['"]canonical['"]` (case-insensitive letters,
independent quotes) matches at the head of `l`. -/
def relPatAt (l : List Char) : Bool :=
  beginsWithCI (s2l "rel=") l &&
  (match l.drop 4 with
   | q :: r =>
     isQuoteCh q && beginsWithCI (s2l "canonical") r &&
     (match r.drop 9 with
      | q2 :: _ => isQuoteCh q2
      | [] => false)
   | [] => false)

/-- `rel=['"]canonical['"]` occurs somewhere in `l`. -/
def containsRel : List Char → Bool
  | [] => relPatAt []
  | c :: cs => relPatAt (c :: cs) || containsRel cs

/-- The `[^>]+` before `rel=` needs at least one character, so the `rel=`
pattern must occur at offset ≥ 1 inside the area between `<link` and `>`. -/
def containsRelAfterOne : List Char → Bool
  | [] => false
  | _ :: t => containsRel t

/-- Length of the match of `(?is)<link[^>]+rel=['"]canonical['"][^>]*>` at
the head of `l` (`none` when it does not match there).  The match runs
from `<link` to the first `'>'` after it, provided `rel=['"]canonical['"]`
occurs strictly between (at offset ≥ 1 past `<link`). -/
def matchCanonLen (l : List Char) : Option Nat :=
  if beginsWithCI (s2l "<link") l then
    match splitAtGt (l.drop 5) with
    | some (mid, _) => if containsRelAfterOne mid then some (6 + mid.length) else none
    | none => none
  else none

/-- `re.sub` of the canonical-link pattern with `''`: left-to-right scan,
each match removed, scanning resumes after the match.  Fuelled with the
text length (every step consumes at least one character). -/
def removeCanonAux : Nat → List Char → List Char
  | 0, l => l
  | fuel + 1, l =>
    match matchCanonLen l with
    | some n => removeCanonAux fuel (l.drop n)
    | none =>
      match l with
      | [] => []
      | c :: cs => c :: removeCanonAux fuel cs

def removeCanonicals (l : List Char) : List Char := removeCanonAux l.length l

/-- Number of (leftmost, non-overlapping) canonical-link matches, the count
`re.sub` would replace. -/
def countCanonAux : Nat → List Char → Nat
  | 0, _ => 0
  | fuel + 1, l =>
    match matchCanonLen l with
    | some n => 1 + countCanonAux fuel (l.drop n)
    | none =>
      match l with
      | [] => 0
      | _ :: cs => countCanonAux fuel cs

def countCanon (l : List Char) : Nat := countCanonAux l.length l

/-- `(?is)</head\s*>` matches at the head of `l`. -/
def matchHeadCloseAt (l : List Char) : Bool :=
  beginsWithCI (s2l "</head") l &&
  (match (l.drop 6).dropWhile isReWS with
   | c :: _ => c == '>'
   | [] => false)

/-- `re.search(r'(?is)</head\s*>', ...).start()`: index of the first match. -/
def searchHeadAux : List Char → Nat → Option Nat
  | [], _ => none
  | l@(_ :: cs), i => if matchHeadCloseAt l then some i else searchHeadAux cs (i + 1)

def searchHeadClose (l : List Char) : Option Nat := searchHeadAux l 0

/-- `f'<link rel="canonical" href="{canonical_url}">'`. -/
def canonTag (url : List Char) : List Char :=
  s2l "<link rel=\"canonical\" href=\"" ++ url ++ s2l "\">"

/-- `name=['"]robots['"]` at the head of `l`; returns the rest after it. -/
def nameRobotsRest (l : List Char) : Option (List Char) :=
  if beginsWithCI (s2l "name=") l then
    match l.drop 5 with
    | q :: r =>
      if isQuoteCh q && beginsWithCI (s2l "robots") r then
        match r.drop 6 with
        | q2 :: r2 => if isQuoteCh q2 then some r2 else none
        | [] => none
      else none
    | [] => none
  else none

/-- `content=['"]https?://` at the head of `l`; returns the rest.  The
`s?` needs no backtracking: if the character after `http` is `s`/`S` the
variant without it fails at `:`, and conversely. -/
def contentHttpRest (l : List Char) : Option (List Char) :=
  if beginsWithCI (s2l "content=") l then
    match l.drop 8 with
    | q :: r =>
      if isQuoteCh q && beginsWithCI (s2l "http") r then
        let r2 := r.drop 4
        let r3 :=
          match r2 with
          | c :: rest => if lowerChar c == 's' then rest else r2
          | [] => r2
        if beginsWith (s2l "://") r3 then some (r3.drop 3) else none
      else none
    | [] => none
  else none

/-- `[^'"]+['"]`: the greedy run only succeeds when taken maximally (any
shorter run is followed by a non-quote), so it is deterministic. -/
def urlTailRest (l : List Char) : Option (List Char) :=
  let run := l.takeWhile (fun c => !(isQuoteCh c))
  if run.length = 0 then none
  else
    match l.drop run.length with
    | q :: r => if isQuoteCh q then some r else none
    | [] => none

/-- `[^>]*>`: likewise deterministic (maximal run, then the literal). -/
def gtTailRest (l : List Char) : Option (List Char) :=
  let run := l.takeWhile (fun c => !(c == '>'))
  match l.drop run.length with
  | c :: r => if c == '>' then some r else none
  | [] => none

/-- Match of
`(?is)<meta[^>]+name=['"]robots['"][^>]+content=['"]https?://[^'"]+['"][^>]*>`
at the head of `l`; returns the rest after the match.  The two `[^>]+`
groups backtrack greedily (longest first), mirroring Python; the remaining
pieces are deterministic as argued above. -/
def matchMetaRest (l : List Char) : Option (List Char) :=
  if beginsWithCI (s2l "<meta") l then
    let r0 := l.drop 5
    let maxA := (r0.takeWhile (fun c => !(c == '>'))).length
    firstSome
      (fun a =>
        match nameRobotsRest (r0.drop a) with
        | none => none
        | some r2 =>
          let maxB := (r2.takeWhile (fun c => !(c == '>'))).length
          firstSome
            (fun b =>
              match contentHttpRest (r2.drop b) with
              | none => none
              | some r4 =>
                match urlTailRest r4 with
                | none => none
                | some r5 => gtTailRest r5)
            (downFrom maxB))
      (downFrom maxA)
  else none

def ROBOTS_REPL : List Char := s2l "<meta name=\"robots\" content=\"index, follow\">"

def robotsSubAux : Nat → List Char → List Char
  | 0, l => l
  | fuel + 1, l =>
    match matchMetaRest l with
    | some rest => ROBOTS_REPL ++ robotsSubAux fuel rest
    | none =>
      match l with
      | [] => []
      | c :: cs => c :: robotsSubAux fuel cs

def robotsSub (l : List Char) : List Char := robotsSubAux l.length l

/-- The text `ensure_canonical` applies the meta-robots repair to: the
document with the fresh tag inserted before the first `</head>`, or, when
there is no `</head>`, the stripped document itself (the code then
prepends the tag after the repair). -/
def preRobotsText (html url : List Char) : List Char :=
  let h1 := removeCanonicals html
  match searchHeadClose h1 with
  | some pos => h1.take pos ++ canonTag url ++ '\n' :: h1.drop pos
  | none => h1

/-- `ensure_canonical(html, canonical_url)` of scripts/fix_canonical.py. -/
def ensure_canonical (html url : List Char) : List Char :=
  let h1 := removeCanonicals html
  match searchHeadClose h1 with
  | some pos => robotsSub (h1.take pos ++ canonTag url ++ '\n' :: h1.drop pos)
  | none => canonTag url ++ '\n' :: robotsSub h1

end FixCanonical

/-- `str.rfind` of a literal: index of the LAST occurrence of `pat`
(searching from the end of the document backward), `none` when absent. -/
def rfindAux (pat : List Char) : List Char → Nat → Option Nat → Option Nat
  | [], _, acc => acc
  | l@(_ :: cs), i, acc =>
    rfindAux pat cs (i + 1) (if beginsWith pat l then some i else acc)

def rfindSeq (pat l : List Char) : Option Nat := rfindAux pat l 0 none

/-- Python `str.replace(old, new)` (all non-overlapping occurrences, left
to right); `old` is nonempty at every call site. -/
def pyReplaceAux (old new : List Char) : Nat → List Char → List Char
  | 0, l => l
  | fuel + 1, l =>
    if beginsWith old l && !old.isEmpty then
      new ++ pyReplaceAux old new fuel (l.drop old.length)
    else
      match l with
      | [] => []
      | c :: cs => c :: pyReplaceAux old new fuel cs

def pyReplace (s old new : List Char) : List Char := pyReplaceAux old new s.length s

namespace InjectMetrika

/-!
## tools/inject_metrika.py

Adds/repairs the Yandex.Metrika snippet (id 103602117) in an HTML page:
skip when any marker already carries the target id; otherwise rewrite the
three id-bearing patterns (tag.js URL, watch URL, `ym(..., 'init')`), and
if none of the URL patterns changed, inject the full snippet before the
last `</head>` (or `</body>`, or append at the end).
-/

def TARGET_ID : List Char := s2l "103602117"

/-- The `SNIPPET` constant of the script, verbatim (a trailing newline is
part of the Python triple-quoted string). -/
def SNIPPET : List Char := s2l
  "<!\x2d- Yandex.Metrika counter -\x2d>\n<script type=\"text/javascript\">\n    (function(m,e,t,r,i,k,a)\x7b\n        m[i]=m[i]||function()\x7b(m[i].a=m[i].a||[]).push(arguments)\x7d;\n        m[i].l=1*new Date();\n        for (var j = 0; j < document.scripts.length; j++) \x7bif (document.scripts[j].src === r) \x7b return; \x7d\x7d\n        k=e.createElement(t),a=e.getElementsByTagName(t)[0],k.async=1,k.src=r,a.parentNode.insertBefore(k,a)\n    \x7d)(window, document,\x27script\x27,\x27https://mc.yandex.ru/metrika/tag.js?id=103602117\x27, \x27ym\x27);\n\n    ym(103602117, \x27init\x27, \x7bssr:true, webvisor:true, clickmap:true, ecommerce:\"dataLayer\", accurateTrackBounce:true, trackLinks:true\x7d);\n</script>\n<noscript><div><img src=\"https://mc.yandex.ru/watch/103602117\" style=\"position:absolute; left:-9999px;\" alt=\"\" /></div></noscript>\n<!\x2d- /Yandex.Metrika counter -\x2d>\n"

/-- `ym\(\s*103602117\s*,\s*'init'` matches at the head of `l` (the third
disjunct of `has_target_id`).  Each `\s*` here is deterministic: the
character class following it is disjoint from whitespace. -/
def ymTargetAt (l : List Char) : Bool :=
  beginsWith (s2l "ym(") l &&
  (let r := (l.drop 3).dropWhile isReWS
   beginsWith TARGET_ID r &&
   (match (r.drop 9).dropWhile isReWS with
    | c :: r3 => c == ',' && beginsWith (s2l "\x27init\x27") (r3.dropWhile isReWS)
    | [] => false))

def searchYmTarget : List Char → Bool
  | [] => false
  | c :: cs => ymTargetAt (c :: cs) || searchYmTarget cs

/-- `has_target_id(text)`: any of the three markers carries the target id. -/
def has_target_id (text : List Char) : Bool :=
  containsSeq (s2l "metrika/tag.js?id=103602117") text ||
  containsSeq (s2l "watch/103602117") text ||
  searchYmTarget text

def TAG_LIT : List Char := s2l "https://mc.yandex.ru/metrika/tag.js?id="

def WATCH_LIT : List Char := s2l "https://mc.yandex.ru/watch/"

/-- Match of `https://mc\.yandex\.ru/metrika/tag\.js\?id=(\d+)` at the
head of `l`: the literal then a maximal nonempty digit run (group 1). -/
def matchTagJs (l : List Char) : Option (List Char × List Char) :=
  if beginsWith TAG_LIT l then
    let r := l.drop TAG_LIT.length
    let ds := r.takeWhile isDigitCh
    if ds.isEmpty then none else some (ds, r.drop ds.length)
  else none

/-- `RE_TAG_JS.sub(repl_tag, text)`: each match with a non-target id is
replaced by `m.group(0).replace(old, TARGET_ID)` and sets the changed
flag; target-id matches are kept as they are. -/
def subTagAux : Nat → List Char → List Char × Bool
  | 0, l => (l, false)
  | fuel + 1, l =>
    match matchTagJs l with
    | some (ds, rest) =>
      let p := subTagAux fuel rest
      if ds = TARGET_ID then (TAG_LIT ++ ds ++ p.1, p.2)
      else (pyReplace (TAG_LIT ++ ds) ds TARGET_ID ++ p.1, true)
    | none =>
      match l with
      | [] => ([], false)
      | c :: cs =>
        let p := subTagAux fuel cs
        (c :: p.1, p.2)

def subTag (l : List Char) : List Char × Bool := subTagAux l.length l

def matchWatch (l : List Char) : Option (List Char × List Char) :=
  if beginsWith WATCH_LIT l then
    let r := l.drop WATCH_LIT.length
    let ds := r.takeWhile isDigitCh
    if ds.isEmpty then none else some (ds, r.drop ds.length)
  else none

def subWatchAux : Nat → List Char → List Char × Bool
  | 0, l => (l, false)
  | fuel + 1, l =>
    match matchWatch l with
    | some (ds, rest) =>
      let p := subWatchAux fuel rest
      if ds = TARGET_ID then (WATCH_LIT ++ ds ++ p.1, p.2)
      else (pyReplace (WATCH_LIT ++ ds) ds TARGET_ID ++ p.1, true)
    | none =>
      match l with
      | [] => ([], false)
      | c :: cs =>
        let p := subWatchAux fuel cs
        (c :: p.1, p.2)

def subWatch (l : List Char) : List Char × Bool := subWatchAux l.length l

/-- Length of the match of `ym\(\s*(\d+)\s*,\s*'init'` at the head of `l`
(all quantifiers deterministic as the following classes are disjoint). -/
def matchYmInitLen (l : List Char) : Option Nat :=
  if beginsWith (s2l "ym(") l then
    let r1 := l.drop 3
    let w1 := r1.takeWhile isReWS
    let r2 := r1.drop w1.length
    let ds := r2.takeWhile isDigitCh
    if ds.isEmpty then none
    else
      let r3 := r2.drop ds.length
      let w2 := r3.takeWhile isReWS
      match r3.drop w2.length with
      | c :: r5 =>
        if c == ',' then
          let w3 := r5.takeWhile isReWS
          if beginsWith (s2l "\x27init\x27") (r5.drop w3.length) then
            some (3 + w1.length + ds.length + w2.length + 1 + w3.length + 6)
          else none
        else none
      | [] => none
  else none

def YM_REPL : List Char := s2l "ym(103602117, \x27init\x27"

/-- `RE_YM_INIT.sub(lambda m: f"ym({TARGET_ID}, 'init'", ...)`: every
match is rewritten to the canonical call; the `changed` flag of
`replace_other_id` is NOT touched by this substitution (the lambda the
code installs on line 78 never sets it — the `repl_init` function that
would is dead code). -/
def subYmAux : Nat → List Char → List Char
  | 0, l => l
  | fuel + 1, l =>
    match matchYmInitLen l with
    | some n => YM_REPL ++ subYmAux fuel (l.drop n)
    | none =>
      match l with
      | [] => []
      | c :: cs => c :: subYmAux fuel cs

def subYm (l : List Char) : List Char := subYmAux l.length l

/-- `replace_other_id(text)`: the three substitutions in sequence; the
returned flag only reflects the tag.js and watch substitutions. -/
def replace_other_id (text : List Char) : List Char × Bool :=
  let p1 := subTag text
  let p2 := subWatch p1.1
  (subYm p2.1, p1.2 || p2.2)

/-- `inject(text)`: insert the snippet before the last `</head>` of the
lower-cased text (else the last `</body>`, else append at the end). -/
def inject (text : List Char) : List Char × Bool :=
  let lower := lowerList text
  match rfindSeq (s2l "</head>") lower with
  | some i => (text.take i ++ '\n' :: SNIPPET ++ '\n' :: text.drop i, true)
  | none =>
    match rfindSeq (s2l "</body>") lower with
    | some i => (text.take i ++ '\n' :: SNIPPET ++ '\n' :: text.drop i, true)
    | none => (text ++ '\n' :: SNIPPET ++ ['\n'], true)

/-- Outcome of `main`'s per-file processing: counted `skipped` (nothing
written), `updated` (text2 written) or `added` (text3 written). -/
inductive MetrikaRes
  | skipped
  | updated (t : List Char)
  | added (t : List Char)
deriving DecidableEq

/-- The per-file flow of `main` (lines 121-140): skip when the target id
is present; else write the repair when it flagged a change; else inject
the snippet INTO THE ORIGINAL TEXT (`inject(text)`, not `inject(text2)`). -/
def metrikaStep (text : List Char) : MetrikaRes :=
  if has_target_id text then .skipped
  else
    let p := replace_other_id text
    if p.2 then .updated p.1
    else .added (inject text).1

/-- The id captured by `RE_YM_INIT` at position `i` of `l` (`none` when
the pattern does not match there). -/
def ymInitIdAt (l : List Char) (i : Nat) : Option (List Char) :=
  let r := l.drop i
  if beginsWith (s2l "ym(") r then
    let r1 := (r.drop 3).dropWhile isReWS
    let ds := r1.takeWhile isDigitCh
    if ds.isEmpty then none
    else
      match (r1.drop ds.length).dropWhile isReWS with
      | c :: r3 =>
        if c == ',' && beginsWith (s2l "\x27init\x27") (r3.dropWhile isReWS) then some ds
        else none
      | [] => none
  else none

/-- Same, read off the text `main` would write (`none` for a skip). -/
def ymIdAtWritten (r : MetrikaRes) (i : Nat) : Option (List Char) :=
  match r with
  | .skipped => none
  | .updated t => ymInitIdAt t i
  | .added t => ymInitIdAt t i

end InjectMetrika

/-- Python `str.strip()` (both ends; default whitespace set, which on the
inputs at hand coincides with the regex `\s` class). -/
def pyStrip (l : List Char) : List Char :=
  ((l.dropWhile isReWS).reverse.dropWhile isReWS).reverse

/-- Python `str.rstrip("/")`. -/
def rstripSlash (l : List Char) : List Char :=
  (l.reverse.dropWhile (fun c => c = '/')).reverse

/-- `(REPO.split("/", 1) + [""])[:2]` — owner and name component of a
repository identifier (name empty when there is no `/`). -/
def splitRepo (repo : List Char) : List Char × List Char :=
  if containsSeq (s2l "/") repo then
    (repo.takeWhile (fun c => !(c == '/')), (repo.dropWhile (fun c => !(c == '/'))).drop 1)
  else (repo, [])

/-- First line of the stripped marker-file text, stripped
(`read_text().strip().splitlines()[0].strip()`).  A whitespace-only file
makes the Python code raise IndexError; that corner is modelled as an
empty domain (no claim below passes a marker file at all). -/
def cnameDomain (t : List Char) : List Char :=
  pyStrip ((pyStrip t).takeWhile (fun c => !(c == '\n') && !(c == '\r')))

/-- `'/'.join` of path segments — `as_posix()` of a relative path. -/
def interSlash : List (List Char) → List Char
  | [] => []
  | [s] => s
  | s :: rest => s ++ '/' :: interSlash rest

/-- `path.name`: the final segment. -/
def lastSeg (segs : List (List Char)) : List Char := segs.getLastD []

/-- `re.sub(r"/{2,}", "/", ...)`: every maximal run of two or more
slashes becomes a single one (collapsing every run, runs of one
included, is the same function). -/
def collapseSlashAux : Nat → List Char → List Char
  | 0, l => l
  | fuel + 1, l =>
    match l with
    | [] => []
    | c :: cs =>
      if c = '/' then '/' :: collapseSlashAux fuel (cs.dropWhile (fun d => d = '/'))
      else c :: collapseSlashAux fuel cs

def collapseSlash (l : List Char) : List Char := collapseSlashAux l.length l

namespace FixCanonical

/-- The exclusion on `path.name.lower()` (404 page, search-engine
verification files). -/
def nameExcluded (name : List Char) : Bool :=
  let n := lowerList name
  (n == s2l "404.html") || beginsWith (s2l "yandex_") n || beginsWith (s2l "google") n

/-- `build_canonical_for(path, base)`; the path is given by its segments
relative to ROOT (pathlib yields nonempty, slash-free segments). -/
def build_canonical_for (segs : List (List Char)) (base : List Char) : List Char :=
  let base' := rstripSlash base
  let rel := interSlash segs
  if nameExcluded (lastSeg segs) then []
  else
    let urlPath :=
      if seqEnds (s2l "index.html") rel then '/' :: rel.take (rel.length - 10)
      else '/' :: rel
    base' ++ collapseSlash urlPath

/-- `detect_base_url()` of scripts/fix_canonical.py; `cname` is the
content of the `CNAME` marker file when it exists. -/
def detect_base_url (cname : Option (List Char)) (repo : List Char) : List Char :=
  let p := splitRepo repo
  let fromRepo :=
    if seqEnds (s2l ".github.io") p.2 then s2l "https://" ++ p.2
    else if !p.1.isEmpty && !p.2.isEmpty then
      s2l "https://" ++ p.1 ++ s2l ".github.io/" ++ p.2
    else []
  match cname with
  | some t =>
    let d := cnameDomain t
    if !d.isEmpty then
      if !beginsWith (s2l "http") d then s2l "https://" ++ d else d
    else fromRepo
  | none => fromRepo

/-- `base = BASE_URL or detect_base_url()` (module-level
`BASE_URL = os.environ.get("BASE_URL", "").strip()`). -/
def resolveBase (baseEnv : List Char) (cname : Option (List Char)) (repo : List Char) :
    List Char :=
  let b := pyStrip baseEnv
  if !b.isEmpty then b else detect_base_url cname repo

def ERR_NO_BASE : List Char :=
  s2l "Не удалось определить BASE_URL. Задайте переменную среды BASE_URL или добавьте CNAME/проверьте GITHUB_REPOSITORY."

def ERR_NO_ROOT : List Char := s2l "Каталог SITE_ROOT не найден: "

/-- The per-file step of `main`'s loop: excluded files are left alone,
all others get `ensure_canonical` (the file is rewritten only when the
text changed, so the resulting on-disk text is this in either case). -/
def processFile (base : List Char) (f : List (List Char) × List Char) : List Char :=
  let can := build_canonical_for f.1 base
  if can.isEmpty then f.2 else ensure_canonical f.2 can

/-- Control flow of `main()` (lines 90-120): resolve the base URL and
abort via `SystemExit` (non-zero exit, message printed) when it is empty
— before the HTML tree is even walked — otherwise process every file. -/
def mainCanonical (baseEnv : List Char) (cname : Option (List Char)) (repo : List Char)
    (rootExists : Bool) (files : List (List (List Char) × List Char)) :
    Except (List Char) (List (List (List Char) × List Char)) :=
  let base := resolveBase baseEnv cname repo
  if base.isEmpty then .error ERR_NO_BASE
  else if !rootExists then .error ERR_NO_ROOT
  else .ok (files.map fun f => (f.1, processFile base f))

end FixCanonical

namespace GeneratePages

/-- `detect_base_url()` of tools/generate_pages.py: CNAME marker file →
`SITE_DOMAIN` env var (when it starts with "http") → repository-name
convention → hard-coded fallback. -/
def detect_base_url (cname : Option (List Char)) (siteDomain repo : List Char) : List Char :=
  let fromEnvOrRepo :=
    let env := rstripSlash (pyStrip siteDomain)
    if beginsWith (s2l "http") env then env
    else if containsSeq (s2l "/") repo then
      let p := splitRepo repo
      if seqEnds (s2l ".github.io") p.2 then rstripSlash (s2l "https://" ++ p.2)
      else rstripSlash (s2l "https://" ++ p.1 ++ s2l ".github.io/" ++ p.2)
    else s2l "https://dostup-world.github.io"
  match cname with
  | some t =>
    let host := cnameDomain t
    if !host.isEmpty then rstripSlash (s2l "https://" ++ host) else fromEnvOrRepo
  | none => fromEnvOrRepo

end GeneratePages

namespace GenSitemap

/-!
## tools/generate_sitemap.py
-/

def EXCLUDE_DIRS : List (List Char) :=
  [s2l ".git", s2l ".github", s2l "tools", s2l "assets", s2l "images", s2l "img",
   s2l "fonts", s2l "css", s2l "js", s2l "vendor", s2l "node_modules"]

/-- `set(p.relative_to(ROOT).parts) & EXCLUDE_DIRS` nonempty (the final
segment is among the parts as well). -/
def dirExcluded (segs : List (List Char)) : Bool :=
  segs.any (fun s => EXCLUDE_DIRS.contains s)

/-- `[0-9a-zA-Z]` after lower-casing. -/
def isAlnum (c : Char) : Bool := isDigitCh c || ('a' ≤ c && c ≤ 'z')

/-- `^google[0-9a-zA-Z]+\.html$` against the lower-cased name. -/
def googleAlt (n : List Char) : Bool :=
  beginsWith (s2l "google") n && seqEnds (s2l ".html") n &&
  decide (12 ≤ n.length) && ((n.drop 6).take (n.length - 11)).all isAlnum

/-- `^yandex_[0-9a-zA-Z]+\.html$` against the lower-cased name. -/
def yandexAlt (n : List Char) : Bool :=
  beginsWith (s2l "yandex_") n && seqEnds (s2l ".html") n &&
  decide (13 ≤ n.length) && ((n.drop 7).take (n.length - 12)).all isAlnum

/-- `EXCLUDE_FILES_RE.match(p.name)`: each verbose alternative is
`^…$`-anchored; `(?i)` is handled by lower-casing. -/
def excludeFileRe (name : List Char) : Bool :=
  let n := lowerList name
  (n == s2l "404.html") || (n == s2l "cname") || (n == s2l "sitemap.xml") ||
  (n == s2l "sitemap-index.xml") || (n == s2l "rss.xml") || (n == s2l "feed.xml") ||
  (n == s2l "atom.xml") || googleAlt n || yandexAlt n

/-- `xml.sax.saxutils.escape`. -/
def escapeXml (l : List Char) : List Char :=
  l.flatMap fun c =>
    if c = '&' then s2l "&amp;"
    else if c = '<' then s2l "&lt;"
    else if c = '>' then s2l "&gt;"
    else [c]

/-- `rel.parent.as_posix()` (pathlib's parent of a single-segment
relative path is `.`). -/
def parentPosix (segs : List (List Char)) : List Char :=
  if segs.length ≤ 1 then s2l "." else interSlash segs.dropLast

/-- `to_url(rel)` without the final escaping — shared verbatim by
tools/generate_rss.py (lines 101-108), which does not escape. -/
def rawToUrl (base : List Char) (segs : List (List Char)) : List Char :=
  let relPosix := interSlash segs
  let url :=
    if seqEnds (s2l "index.html") relPosix then
      '/' :: rstripSlash (parentPosix segs) ++ [ '/' ]
    else '/' :: relPosix
  pyReplace (pyReplace (base ++ url) (s2l "//") (s2l "/")) (s2l ":/") (s2l "://")

/-- `to_url(rel)` of tools/generate_sitemap.py. -/
def to_url (base : List Char) (segs : List (List Char)) : List Char :=
  escapeXml (rawToUrl base segs)

/-- A timestamp as `datetime` fields (UTC, microseconds dropped). -/
structure DT where
  y : Nat
  mo : Nat
  d : Nat
  h : Nat
  mi : Nat
  s : Nat
deriving DecidableEq

/-- A sort key that orders `DT` like `datetime` comparison does for
in-range field values. -/
def dtKey (t : DT) : Nat :=
  ((((t.y * 13 + t.mo) * 32 + t.d) * 25 + t.h) * 61 + t.mi) * 61 + t.s

def digitChar (d : Nat) : Char := Char.ofNat (48 + d % 10)

def pad2 (n : Nat) : List Char := [digitChar (n / 10), digitChar n]

def pad4 (n : Nat) : List Char :=
  [digitChar (n / 1000), digitChar (n / 100), digitChar (n / 10), digitChar n]

/-- `fmt_w3c`: `strftime('%Y-%m-%dT%H:%M:%SZ')` (equal to it for the
field ranges `datetime` produces: year below 10000, the remaining fields
below 100). -/
def fmt_w3c (t : DT) : List Char :=
  pad4 t.y ++ '-' :: pad2 t.mo ++ '-' :: pad2 t.d ++ 'T' :: pad2 t.h ++
  ':' :: pad2 t.mi ++ ':' :: pad2 t.s ++ ['Z']

def isDigitB (c : Char) : Bool := 48 ≤ c.toNat && c.toNat ≤ 57

/-- The shape `DDDD-DD-DDTDD:DD:SSZ` of a W3C/UTC timestamp. -/
def validW3C : List Char → Bool
  | [y1, y2, y3, y4, s1, a1, a2, s2, b1, b2, tt, c1, c2, k1, d1, d2, k2, e1, e2, z] =>
    isDigitB y1 && isDigitB y2 && isDigitB y3 && isDigitB y4 &&
    (s1 == '-') && isDigitB a1 && isDigitB a2 && (s2 == '-') &&
    isDigitB b1 && isDigitB b2 && (tt == 'T') && isDigitB c1 && isDigitB c2 &&
    (k1 == ':') && isDigitB d1 && isDigitB d2 && (k2 == ':') &&
    isDigitB e1 && isDigitB e2 && (z == 'Z')
  | _ => false

/-- A crawled document: its path segments below ROOT and its raw text. -/
structure Doc where
  segs : List (List Char)
  text : List Char

/-- One sitemap entry; `segs` records which document it came from (the
Python dict keeps `loc`, `lastmod`, `dt`). -/
structure SEntry where
  segs : List (List Char)
  loc : List Char
  lastmod : List Char
  dt : DT

/-- `collect()`: directory/file exclusion, URL and lastmod per surviving
document, sorted by timestamp descending (`lastmod` is the capability
interface for the git-log-or-mtime lookup). -/
def collect (base : List Char) (lastmod : Doc → DT) (docs : List Doc) : List SEntry :=
  List.insertionSort (fun a b => dtKey b.dt ≤ dtKey a.dt)
    ((docs.filter fun d => !dirExcluded d.segs && !excludeFileRe (lastSeg d.segs)).map
      fun d =>
        { segs := d.segs, loc := to_url base d.segs,
          lastmod := fmt_w3c (lastmod d), dt := lastmod d })

/-- The slices `items[i:i+MAX_URLS]` for `i in range(0, len(items), MAX_URLS)`
(a zero cap would raise ValueError in Python; it is modelled as no
slices and is unreachable — MAX_URLS defaults to 49000). -/
def chunkList (cap : Nat) (l : List α) : List (List α) :=
  if hg : l.isEmpty || (cap == 0) then []
  else l.take cap :: chunkList cap (l.drop cap)
termination_by l.length
decreasing_by
  simp only [Bool.or_eq_true, List.isEmpty_iff, beq_iff_eq, not_or] at hg
  have : 0 < l.length := List.length_pos.mpr hg.1
  simp only [List.length_drop]
  omega

/-- `f"sitemap-{i // MAX_URLS + 1}.xml"` for the chunk starting at
offset `i`. -/
def partName (maxUrls i : Nat) : List Char :=
  s2l "sitemap-" ++ s2l (Nat.repr (i / maxUrls + 1)) ++ s2l ".xml"

def SITEMAP_INDEX_HEAD : List Char :=
  s2l "<?xml version=\"1.0\" encoding=\"UTF-8\"?>\n<sitemapindex xmlns=\"http://www.sitemaps.org/schemas/sitemap/0.9\">\n"

def SITEMAP_INDEX_TAIL : List Char := s2l "</sitemapindex>\n"

/-- The `lines` list built by `write_sitemap_index(path, parts)` (joined
with newlines before writing); `now` is computed once for the run. -/
def sitemapIndexLines (base : List Char) (parts : List (List Char)) (now : DT) :
    List (List Char) :=
  SITEMAP_INDEX_HEAD ::
  (parts.flatMap fun p =>
    [s2l "  <sitemap>",
     s2l "    <loc>" ++ escapeXml (base ++ '/' :: p) ++ s2l "</loc>",
     s2l "    <lastmod>" ++ fmt_w3c now ++ s2l "</lastmod>",
     s2l "  </sitemap>"]) ++ [SITEMAP_INDEX_TAIL]

/-- What `main()` emits: one flat sitemap (and the stale index deleted),
or the partitioned files plus the index that references them. -/
inductive SitemapOut
  | single (items : List SEntry)
  | parted (parts : List (List Char × List SEntry)) (indexLines : List (List Char))

/-- The partitioning branch of `main()` (lines 157-185). -/
def sitemapMain (base : List Char) (maxUrls : Nat) (now : DT) (items : List SEntry) :
    SitemapOut :=
  if items.length ≤ maxUrls then .single items
  else
    let chunks := chunkList maxUrls items
    let parts := chunks.enum.map fun p => (partName maxUrls (p.1 * maxUrls), p.2)
    .parted parts (sitemapIndexLines base (parts.map (·.1)) now)

def isParted : SitemapOut → Bool
  | .parted _ _ => true
  | .single _ => false

def partsOf : SitemapOut → List (List Char × List SEntry)
  | .parted p _ => p
  | .single _ => []

def indexLinesOf : SitemapOut → List (List Char)
  | .parted _ i => i
  | .single _ => []

end GenSitemap

namespace GenRss

/-!
## tools/generate_rss.py
-/

/-- `EXCLUDE_FILES_REGEX.match(name)` (same families as the sitemap's,
without the `sitemap-index` alternative). -/
def excludeFileRe (name : List Char) : Bool :=
  let n := lowerList name
  (n == s2l "404.html") || (n == s2l "cname") || (n == s2l "sitemap.xml") ||
  (n == s2l "rss.xml") || (n == s2l "feed.xml") || (n == s2l "atom.xml") ||
  GenSitemap.googleAlt n || GenSitemap.yandexAlt n

/-- One RSS item; `segs` records the source document. -/
structure RItem where
  segs : List (List Char)
  title : List Char
  link : List Char
  guid : List Char
  description : List Char
  dt : GenSitemap.DT

/-- `collect_items()`: directory/file exclusion, then title extraction
(items without a title are dropped), link via the shared `to_url`
transformation (unescaped), sorted by timestamp descending, optionally
capped.  `getTitle`/`getDesc` model the regex-scraping helpers
`get_title`/`get_description` (their inner workings are irrelevant to
every claim, which only concern the exclusion and ordering); `lastmod`
models the git-log-or-mtime lookup. -/
def collect_items (base : List Char) (getTitle getDesc : List Char → List Char)
    (lastmod : GenSitemap.Doc → GenSitemap.DT) (maxItems : Nat)
    (docs : List GenSitemap.Doc) : List RItem :=
  let items :=
    (docs.filter fun d =>
        !GenSitemap.dirExcluded d.segs && !excludeFileRe (lastSeg d.segs) &&
        !(getTitle d.text).isEmpty).map
      fun d =>
        let title := getTitle d.text
        let desc := getDesc d.text
        let link := GenSitemap.rawToUrl base d.segs
        { segs := d.segs, title := title, link := link, guid := link,
          description := if desc.isEmpty then title else desc, dt := lastmod d }
  let sorted := List.insertionSort
    (fun a b => GenSitemap.dtKey b.dt ≤ GenSitemap.dtKey a.dt) items
  if 0 < maxItems then sorted.take maxItems else sorted

end GenRss

/-- The "404 page / search-engine verification file" family of the spec,
on the lower-cased filename: exactly the names every one of the three
exclusion rules covers. -/
def famExcluded (name : List Char) : Bool :=
  (lowerList name == s2l "404.html") || GenSitemap.googleAlt (lowerList name) ||
  GenSitemap.yandexAlt (lowerList name)

/-- No two adjacent slashes (so `re.sub(r"/{2,}", "/", ...)` is a no-op). -/
def noDblSlash : List Char → Bool
  | [] => true
  | [_] => true
  | a :: b :: t => !((a == '/') && (b == '/')) && noDblSlash (b :: t)

/-! ## Helper lemmas -/

theorem beginsWith_refl_append (p y : List Char) : beginsWith p (p ++ y) = true := by
  induction p with
  | nil => rfl
  | cons a as ih => simp [beginsWith, ih]

theorem containsSeq_nil_pat (l : List Char) : containsSeq [] l = true := by
  cases l <;> simp [containsSeq, beginsWith]

theorem containsSeq_of_append (pat x y : List Char) :
    containsSeq pat (x ++ pat ++ y) = true := by
  induction x with
  | nil =>
    cases pat with
    | nil => simp [containsSeq_nil_pat]
    | cons p ps =>
      have hb := beginsWith_refl_append (p :: ps) y
      simpa [containsSeq] using Or.inl hb
  | cons a as ih => simpa [containsSeq] using Or.inr ih

theorem beginsWith_decomp {p l : List Char} (h : beginsWith p l = true) :
    l = p ++ l.drop p.length := by
  induction p generalizing l with
  | nil => simp
  | cons a as ih =>
    cases l with
    | nil => simp [beginsWith] at h
    | cons c cs =>
      simp only [beginsWith, Bool.and_eq_true, beq_iff_eq] at h
      simpa [h.1] using congrArg (c :: ·) (ih h.2)

theorem seqEnds_decomp {pat l : List Char} (h : seqEnds pat l = true) :
    ∃ x, l = x ++ pat := by
  simp only [seqEnds, Bool.and_eq_true, decide_eq_true_eq] at h
  refine ⟨l.take (l.length - pat.length), ?_⟩
  have hd := beginsWith_decomp h.1
  have hlen : (l.drop (l.length - pat.length)).length = pat.length := by
    simp [List.length_drop]; omega
  have : (l.drop (l.length - pat.length)).drop pat.length = [] := by
    apply List.eq_nil_of_length_eq_zero
    simp [List.length_drop]; omega
  rw [this, List.append_nil] at hd
  conv_lhs => rw [← List.take_append_drop (l.length - pat.length) l]
  rw [hd]

theorem seqEnds_append (pat x : List Char) : seqEnds pat (x ++ pat) = true := by
  simp only [seqEnds, Bool.and_eq_true, decide_eq_true_eq]
  refine ⟨?_, by simp⟩
  have h1 : (x ++ pat).length - pat.length = x.length := by simp
  rw [h1, List.drop_left]
  simpa using beginsWith_refl_append pat []

theorem takeWhile_append_stop (x y : List Char) (c : Char)
    (p : Char → Bool) (hx : ∀ a ∈ x, p a = true) (hc : p c = false) :
    (x ++ c :: y).takeWhile p = x ∧ (x ++ c :: y).dropWhile p = c :: y := by
  induction x with
  | nil => simp [List.takeWhile, List.dropWhile, hc]
  | cons a as ih =>
    have ha : p a = true := hx a (by simp)
    have ih' := ih (fun b hb => hx b (by simp [hb]))
    simp [List.takeWhile, List.dropWhile, ha, ih'.1, ih'.2]

theorem splitRepo_append (owner name : List Char) (h : '/' ∉ owner) :
    splitRepo (owner ++ '/' :: name) = (owner, name) := by
  have hall : ∀ a ∈ owner, (!(a == '/')) = true := by
    intro a ha
    simp only [Bool.not_eq_true', beq_eq_false_iff_ne]
    exact fun hh => h (hh ▸ ha)
  have hc : (!('/' == '/')) = false := by decide
  have ht := takeWhile_append_stop owner name '/' (fun c => !(c == '/')) hall hc
  have hmem : containsSeq (s2l "/") (owner ++ '/' :: name) = true := by
    have := containsSeq_of_append (s2l "/") owner name
    simpa using this
  simp [splitRepo, hmem, ht.1, ht.2]

theorem rstripSlash_concat {z : List Char} {c : Char} (hc : c ≠ '/') :
    rstripSlash (z ++ [c]) = z ++ [c] := by
  simp [rstripSlash, List.reverse_append, List.dropWhile, hc]

theorem append_ne_nil_left {x : List Char} (y : List Char) (hx : x ≠ []) :
    x ++ y ≠ [] := by
  cases x with
  | nil => exact absurd rfl hx
  | cons a as => simp

theorem getLast?_append_right (x y : List Char) (hy : y ≠ []) :
    (x ++ y).getLast? = y.getLast? := by
  rw [List.getLast?_append]
  obtain ⟨z, c, hzc⟩ := (List.eq_nil_or_concat y).resolve_left hy
  rw [List.concat_eq_append] at hzc
  subst hzc
  simp

theorem rstripSlash_ends (l : List Char) (hne : l ≠ [])
    (hl : l.getLast? ≠ some '/') : rstripSlash l = l := by
  obtain ⟨z, c, hzc⟩ := (List.eq_nil_or_concat l).resolve_left hne
  rw [List.concat_eq_append] at hzc
  subst hzc
  refine rstripSlash_concat ?_
  rintro rfl
  exact hl (by simp)

/-! ## C1 -/

/-- C1 (code bug): the canonical-link injection is NOT idempotent.  On
`<head></head>` the second application of `ensure_canonical` with the
same URL removes the tag it inserted but leaves the newline it appended,
then re-inserts the tag before `</head>`: the text differs from the first
application's output (an extra blank line accumulates), so the entry
point counts the file as changed again on every run. -/
theorem c1_canonical_not_idempotent :
    FixCanonical.ensure_canonical
        (FixCanonical.ensure_canonical (s2l "<head></head>") (s2l "https://e.x/"))
        (s2l "https://e.x/")
      ≠ FixCanonical.ensure_canonical (s2l "<head></head>") (s2l "https://e.x/") := by
  decide

/-! ## C3 -/

/-- C3 (code bug): a document whose only Metrika trace is
`ym(555, 'init')` takes the snippet-injection path, and the written text
still carries the stale ym-init identifier `555` (at position 8), which
differs from the canonical identifier: `replace_other_id` did rewrite the
call, but only the two URL substitutions set the `changed` flag, so its
result is discarded and `inject` runs on the original text. -/
theorem c3_stale_ym_survives :
    InjectMetrika.ymIdAtWritten
        (InjectMetrika.metrikaStep (s2l "<script>ym(555, \x27init\x27)</script></head>")) 8
      = some (s2l "555")
    ∧ s2l "555" ≠ InjectMetrika.TARGET_ID := by
  exact ⟨by decide, by decide⟩

/-! ## C10 -/

/-- C10: if any one of the three markers (script URL, watch URL, ym-init
call) already carries the target identifier, the per-file step skips the
document outright — nothing is written, even when other markers carry a
different identifier. -/
theorem c10_target_marker_skips :
    (∀ text, containsSeq (s2l "metrika/tag.js?id=103602117") text = true →
        InjectMetrika.metrikaStep text = .skipped) ∧
    (∀ text, containsSeq (s2l "watch/103602117") text = true →
        InjectMetrika.metrikaStep text = .skipped) ∧
    (∀ text, InjectMetrika.searchYmTarget text = true →
        InjectMetrika.metrikaStep text = .skipped) := by
  refine ⟨fun text h => ?_, fun text h => ?_, fun text h => ?_⟩ <;>
    simp [InjectMetrika.metrikaStep, InjectMetrika.has_target_id, h]

/-- C10 witness: a mixed-identifier document (target watch URL, foreign
ym-init call) is skipped. -/
theorem c10_witness :
    containsSeq (s2l "watch/103602117")
        (s2l "<p>watch/103602117 ym(555, \x27init\x27)</p>") = true ∧
    InjectMetrika.metrikaStep (s2l "<p>watch/103602117 ym(555, \x27init\x27)</p>")
      = .skipped :=
  ⟨by decide, c10_target_marker_skips.2.1 _ (by decide)⟩

/-! ## C6 -/

/-- C6: when the BASE_URL override is blank and no other signal resolves
(no marker file, unusable repository identifier), the canonical-link
entry point aborts with the descriptive SystemExit message — with the
same `.error` outcome for every file list, i.e. before any HTML file is
read or modified. -/
theorem c6_fatal_abort (baseEnv repo : List Char)
    (h1 : pyStrip baseEnv = [])
    (h2 : FixCanonical.detect_base_url none repo = []) :
    (∀ rootExists files,
        FixCanonical.mainCanonical baseEnv none repo rootExists files
          = .error FixCanonical.ERR_NO_BASE)
    ∧ FixCanonical.ERR_NO_BASE ≠ [] := by
  constructor
  · intro rootExists files
    simp [FixCanonical.mainCanonical, FixCanonical.resolveBase, h1, h2]
  · decide

/-- C6 witness: empty override, no CNAME, empty repository identifier. -/
theorem c6_witness :
    pyStrip (s2l "") = [] ∧ FixCanonical.detect_base_url none (s2l "") = [] ∧
    FixCanonical.mainCanonical (s2l "") none (s2l "") true
        [([s2l "index.html"], s2l "<head></head>")]
      = .error FixCanonical.ERR_NO_BASE :=
  ⟨by decide, by decide,
    (c6_fatal_abort (s2l "") (s2l "") (by decide) (by decide)).1 true _⟩

/-! ## C5 -/

/-- C5: the repository-convention steps of base-URL resolution, in both
scripts that implement them.  With a blank override and no marker file:
a name component ending in ".github.io" resolves to `https://<name>`
(user/organization site); otherwise a nonempty owner/name pair resolves
to `https://<owner>.github.io/<name>` (project site).  The
generate_pages variant additionally needs the blank SITE_DOMAIN
environment value and right-strips slashes, hence the last-character
hypotheses there. -/
theorem c5_fallback_chain :
    (∀ owner name : List Char, '/' ∉ owner →
        seqEnds (s2l ".github.io") name = true →
        FixCanonical.resolveBase [] none (owner ++ '/' :: name)
          = s2l "https://" ++ name) ∧
    (∀ owner name : List Char, '/' ∉ owner →
        seqEnds (s2l ".github.io") name = false → owner ≠ [] → name ≠ [] →
        FixCanonical.resolveBase [] none (owner ++ '/' :: name)
          = s2l "https://" ++ owner ++ s2l ".github.io/" ++ name) ∧
    (∀ owner name : List Char, '/' ∉ owner →
        seqEnds (s2l ".github.io") name = true →
        GeneratePages.detect_base_url none [] (owner ++ '/' :: name)
          = s2l "https://" ++ name) ∧
    (∀ owner name : List Char, '/' ∉ owner →
        seqEnds (s2l ".github.io") name = false → name ≠ [] →
        name.getLast? ≠ some '/' →
        GeneratePages.detect_base_url none [] (owner ++ '/' :: name)
          = s2l "https://" ++ owner ++ s2l ".github.io/" ++ name) := by
  have hsl : ∀ owner name : List Char,
      containsSeq (s2l "/") (owner ++ '/' :: name) = true := by
    intro owner name
    simpa [List.append_assoc] using containsSeq_of_append (s2l "/") owner name
  refine ⟨fun owner name h hE => ?_, fun owner name h hE ho hn => ?_,
          fun owner name h hE => ?_, fun owner name h hE hn hl => ?_⟩
  · simp [FixCanonical.resolveBase, FixCanonical.detect_base_url,
      splitRepo_append owner name h, hE, pyStrip]
  · simp [FixCanonical.resolveBase, FixCanonical.detect_base_url,
      splitRepo_append owner name h, hE, pyStrip, ho, hn]
  · obtain ⟨w, hw⟩ := seqEnds_decomp hE
    have hn : name ≠ [] := by
      subst hw; exact fun hc => by
        have h0 := congrArg List.length hc
        have h9 : (s2l ".github.io").length = 10 := by decide
        simp [List.length_append, h9] at h0
    have hlast : name.getLast? = some 'o' := by
      subst hw
      rw [getLast?_append_right _ _ (by decide)]
      decide
    have hr := rstripSlash_ends (s2l "https://" ++ name)
      (append_ne_nil_left _ (by decide))
      (by rw [getLast?_append_right _ _ hn, hlast]; decide)
    have h0 : rstripSlash ([] : List Char) = [] := rfl
    have hb0 : beginsWith (s2l "http") ([] : List Char) = false := by decide
    simp [GeneratePages.detect_base_url, splitRepo_append owner name h, hsl,
      pyStrip, hE, hr, h0, hb0]
  · have hr := rstripSlash_ends (s2l "https://" ++ owner ++ s2l ".github.io/" ++ name)
      (append_ne_nil_left _
        (append_ne_nil_left _ (append_ne_nil_left _ (by decide))))
      (by rw [getLast?_append_right _ _ hn]; exact hl)
    simp only [List.append_assoc] at hr
    have h0 : rstripSlash ([] : List Char) = [] := rfl
    have hb0 : beginsWith (s2l "http") ([] : List Char) = false := by decide
    simp [GeneratePages.detect_base_url, splitRepo_append owner name h, hsl,
      pyStrip, hE, hr, h0, hb0, List.append_assoc]

/-- C5 witness: the spec's two examples, in both scripts. -/
theorem c5_witness :
    ('/' ∉ s2l "acme" ∧ seqEnds (s2l ".github.io") (s2l "acme.github.io") = true ∧
      FixCanonical.resolveBase [] none (s2l "acme" ++ '/' :: s2l "acme.github.io")
        = s2l "https://" ++ s2l "acme.github.io") ∧
    (seqEnds (s2l ".github.io") (s2l "widgets") = false ∧
      FixCanonical.resolveBase [] none (s2l "acme" ++ '/' :: s2l "widgets")
        = s2l "https://" ++ s2l "acme" ++ s2l ".github.io/" ++ s2l "widgets") ∧
    GeneratePages.detect_base_url none [] (s2l "acme" ++ '/' :: s2l "acme.github.io")
      = s2l "https://" ++ s2l "acme.github.io" ∧
    GeneratePages.detect_base_url none [] (s2l "acme" ++ '/' :: s2l "widgets")
      = s2l "https://" ++ s2l "acme" ++ s2l ".github.io/" ++ s2l "widgets" :=
  ⟨⟨by decide, by decide,
      c5_fallback_chain.1 (s2l "acme") (s2l "acme.github.io") (by decide) (by decide)⟩,
   ⟨by decide,
      c5_fallback_chain.2.1 (s2l "acme") (s2l "widgets") (by decide) (by decide)
        (by decide) (by decide)⟩,
   c5_fallback_chain.2.2.1 (s2l "acme") (s2l "acme.github.io") (by decide) (by decide),
   c5_fallback_chain.2.2.2 (s2l "acme") (s2l "widgets") (by decide) (by decide)
     (by decide) (by decide)⟩

/-! ## C4 -/

theorem interSlash_cons_ne (s : List Char) (rest : List (List Char)) (h : rest ≠ []) :
    interSlash (s :: rest) = s ++ '/' :: interSlash rest := by
  cases rest with
  | nil => exact absurd rfl h
  | cons a as => rfl

theorem interSlash_concat_ne (xs : List (List Char)) (z : List Char) (h : xs ≠ []) :
    interSlash (xs ++ [z]) = interSlash xs ++ '/' :: z := by
  induction xs with
  | nil => exact absurd rfl h
  | cons s xs' ih =>
    cases xs' with
    | nil => rfl
    | cons b bs =>
      rw [List.cons_append, interSlash_cons_ne s ((b :: bs) ++ [z]) (by simp),
        interSlash_cons_ne s (b :: bs) (by simp), ih (by simp), List.append_assoc]
      rfl

theorem noDbl_tail {a : Char} {t : List Char} (h : noDblSlash (a :: t) = true) :
    noDblSlash t = true := by
  cases t with
  | nil => rfl
  | cons b t' =>
    simp only [noDblSlash, Bool.and_eq_true] at h
    exact h.2

theorem noDbl_slashfree : ∀ l : List Char, '/' ∉ l → noDblSlash l = true
  | [], _ => rfl
  | [_], _ => rfl
  | a :: b :: t, h => by
    have ha : (a == '/') = false := by
      simp only [beq_eq_false_iff_ne]
      exact fun hh => h (by simp [hh])
    have ht := noDbl_slashfree (b :: t) (fun hb => h (List.mem_cons_of_mem a hb))
    simp [noDblSlash, ha, ht]

theorem noDbl_cons_slash (l : List Char) (h : '/' ∉ l) :
    noDblSlash ('/' :: l) = true := by
  cases l with
  | nil => rfl
  | cons c t =>
    have hc : (c == '/') = false := by
      simp only [beq_eq_false_iff_ne]
      exact fun hh => h (by simp [hh])
    simp [noDblSlash, hc, noDbl_slashfree (c :: t) h]

theorem noDbl_slash_seg : ∀ s : List Char, '/' ∉ s → s ≠ [] →
    ∀ m : List Char, noDblSlash ('/' :: m) = true →
    noDblSlash ('/' :: (s ++ '/' :: m)) = true
  | [], _, hne, _, _ => absurd rfl hne
  | [a], h, _, m, hm => by
    have ha : (a == '/') = false := by
      simp only [beq_eq_false_iff_ne]
      exact fun hh => h (by simp [hh])
    simp [noDblSlash, ha]
    exact hm
  | a :: b :: t, h, _, m, hm => by
    have ha : (a == '/') = false := by
      simp only [beq_eq_false_iff_ne]
      exact fun hh => h (by simp [hh])
    have hrec := noDbl_slash_seg (b :: t)
      (fun hb => h (List.mem_cons_of_mem a hb)) (by simp) m hm
    simp only [List.cons_append, noDblSlash, Bool.and_eq_true] at hrec ⊢
    exact ⟨by simp [ha], ⟨by simp [ha], hrec.2⟩⟩

theorem noDbl_slash_inter : ∀ xs : List (List Char), ∀ z : List Char,
    (∀ s ∈ xs, '/' ∉ s ∧ s ≠ []) → '/' ∉ z →
    noDblSlash ('/' :: interSlash (xs ++ [z])) = true
  | [], z, _, hz => noDbl_cons_slash z hz
  | s :: xs', z, hwf, hz => by
    have hs := hwf s (by simp)
    have hrec := noDbl_slash_inter xs' z (fun a ha => hwf a (by simp [ha])) hz
    rw [List.cons_append, interSlash_cons_ne s (xs' ++ [z]) (by simp)]
    exact noDbl_slash_seg s hs.1 hs.2 (interSlash (xs' ++ [z])) hrec

theorem collapseAux_nil : ∀ fuel : Nat, collapseSlashAux fuel [] = [] := by
  intro fuel
  cases fuel <;> rfl

theorem collapseAux_noop : ∀ (fuel : Nat) (l : List Char),
    noDblSlash l = true → collapseSlashAux fuel l = l
  | 0, l, _ => rfl
  | fuel + 1, [], _ => rfl
  | fuel + 1, c :: cs, h => by
    by_cases hc : c = '/'
    · subst hc
      cases cs with
      | nil => simp [collapseSlashAux, List.dropWhile, collapseAux_nil]
      | cons c2 cs2 =>
        have hc2 : ¬ c2 = '/' := by
          simp only [noDblSlash, Bool.and_eq_true] at h
          intro hh
          simp [hh] at h
        have ht : noDblSlash (c2 :: cs2) = true := noDbl_tail h
        simp [collapseSlashAux, List.dropWhile, hc2, collapseAux_noop fuel _ ht]
    · simp [collapseSlashAux, hc, collapseAux_noop fuel cs (noDbl_tail h)]

theorem collapse_noop (l : List Char) (h : noDblSlash l = true) :
    collapseSlash l = l := collapseAux_noop l.length l h

theorem lastSeg_concat (xs : List (List Char)) (z : List Char) :
    lastSeg (xs ++ [z]) = z := List.getLastD_concat _ _ _

/-- C4 counterexample: the claim says any filename other than the index
filename is left unchanged; but the code tests `rel.endswith("index.html")`
on the whole relative path string, so `foo/myindex.html` — whose final
segment is NOT the directory-index filename — is still stripped, yielding
`<base>/foo/my` rather than `<base>/foo/myindex.html`. -/
theorem c4_counterexample :
    FixCanonical.build_canonical_for [s2l "foo", s2l "myindex.html"] (s2l "https://e.x")
      = s2l "https://e.x/foo/my"
    ∧ s2l "https://e.x/foo/my" ≠ s2l "https://e.x/foo/myindex.html" :=
  ⟨by decide, by decide⟩

/-- C4 (amended): the canonicalizer strips the 10-character suffix
`index.html` exactly when the relative path STRING ends with it — the
final segment being precisely the index filename (`pre = []`) is the
intended special case of this, but a segment like `myindex.html` is also
stripped (to `my`) — and it leaves the path unchanged (prefixed with `/`)
exactly when the path does not end with `index.html`. -/
theorem c4_amended :
    (∀ (segs : List (List Char)) (pre base : List Char),
        segs ≠ [] → (∀ s ∈ segs, '/' ∉ s ∧ s ≠ []) →
        lastSeg segs = pre ++ s2l "index.html" →
        FixCanonical.nameExcluded (lastSeg segs) = false →
        FixCanonical.build_canonical_for segs base
          = rstripSlash base ++ '/' :: interSlash (segs.dropLast ++ [pre])) ∧
    (∀ (segs : List (List Char)) (base : List Char),
        segs ≠ [] → (∀ s ∈ segs, '/' ∉ s ∧ s ≠ []) →
        seqEnds (s2l "index.html") (interSlash segs) = false →
        FixCanonical.nameExcluded (lastSeg segs) = false →
        FixCanonical.build_canonical_for segs base
          = rstripSlash base ++ '/' :: interSlash segs) := by
  constructor
  · intro segs pre base hne hwf hlast hexc
    obtain ⟨xs, last, hxl⟩ := (List.eq_nil_or_concat segs).resolve_left hne
    rw [List.concat_eq_append] at hxl
    subst hxl
    rw [lastSeg_concat] at hlast hexc
    subst hlast
    have hlastwf := hwf (pre ++ s2l "index.html") (by simp)
    have hpre : '/' ∉ pre := fun hp => hlastwf.1 (List.mem_append_left _ hp)
    have h10 : (s2l "index.html").length = 10 := by decide
    rw [List.dropLast_concat]
    cases xs with
    | nil =>
      have hE : seqEnds (s2l "index.html") (pre ++ s2l "index.html") = true :=
        seqEnds_append _ _
      have hT : (pre ++ s2l "index.html").take
          ((pre ++ s2l "index.html").length - 10) = pre := by
        have harr : (pre ++ s2l "index.html").length - 10 = pre.length := by
          simp only [List.length_append, h10]
          omega
        rw [harr, List.take_left]
      have hsingle : interSlash [pre ++ s2l "index.html"] = pre ++ s2l "index.html" := rfl
      have hlast1 : lastSeg [pre ++ s2l "index.html"] = pre ++ s2l "index.html" := rfl
      simp only [List.nil_append, FixCanonical.build_canonical_for, hsingle, hlast1,
        hexc, hE, if_true, if_false, Bool.false_eq_true, hT]
      rw [collapse_noop _ (noDbl_cons_slash pre hpre)]
      rfl
    | cons b bs =>
      have hxs : (b :: bs) ≠ ([] : List (List Char)) := by simp
      set A := interSlash (b :: bs) with hA
      have hrel : interSlash ((b :: bs) ++ [pre ++ s2l "index.html"])
          = A ++ '/' :: (pre ++ s2l "index.html") := interSlash_concat_ne _ _ hxs
      have hshape : A ++ '/' :: (pre ++ s2l "index.html")
          = (A ++ '/' :: pre) ++ s2l "index.html" := by simp
      have hE : seqEnds (s2l "index.html") (A ++ '/' :: (pre ++ s2l "index.html"))
          = true := by
        rw [hshape]; exact seqEnds_append _ _
      have hT : (A ++ '/' :: (pre ++ s2l "index.html")).take
            ((A ++ '/' :: (pre ++ s2l "index.html")).length - 10)
          = A ++ '/' :: pre := by
        rw [hshape]
        have harr : ((A ++ '/' :: pre) ++ s2l "index.html").length - 10
            = (A ++ '/' :: pre).length := by
          simp only [List.length_append, List.length_cons, h10]
          omega
        rw [harr, List.take_left]
      have hwf' : ∀ s ∈ (b :: bs), '/' ∉ s ∧ s ≠ [] := fun s hs =>
        hwf s (List.mem_append_left _ hs)
      have hnd : noDblSlash ('/' :: (A ++ '/' :: pre)) = true := by
        have hh := noDbl_slash_inter (b :: bs) pre hwf' hpre
        rwa [interSlash_concat_ne _ _ hxs] at hh
      have hlastc : lastSeg ((b :: bs) ++ [pre ++ s2l "index.html"])
          = pre ++ s2l "index.html" := lastSeg_concat _ _
      simp only [FixCanonical.build_canonical_for, hrel, hlastc, hexc, hE, if_true,
        if_false, Bool.false_eq_true, hT]
      rw [collapse_noop _ hnd, interSlash_concat_ne _ _ hxs]
  · intro segs base hne hwf hE hexc
    obtain ⟨xs, last, hxl⟩ := (List.eq_nil_or_concat segs).resolve_left hne
    rw [List.concat_eq_append] at hxl
    subst hxl
    have hlw := hwf last (by simp)
    have hnd : noDblSlash ('/' :: interSlash (xs ++ [last])) = true :=
      noDbl_slash_inter xs last (fun s hs => hwf s (List.mem_append_left _ hs)) hlw.1
    simp only [FixCanonical.build_canonical_for, hexc, hE, if_false,
      Bool.false_eq_true]
    rw [collapse_noop _ hnd]

/-- C4 witness: `foo/bar/index.html` canonicalizes to `<base>/foo/bar/`
(the spec's worked example), and a non-index filename stays unchanged. -/
theorem c4_witness :
    (FixCanonical.build_canonical_for [s2l "foo", s2l "bar", s2l "index.html"]
        (s2l "https://e.x")
      = rstripSlash (s2l "https://e.x")
          ++ '/' :: interSlash ([s2l "foo", s2l "bar", s2l "index.html"].dropLast ++ [[]])) ∧
    rstripSlash (s2l "https://e.x")
        ++ '/' :: interSlash ([s2l "foo", s2l "bar", s2l "index.html"].dropLast ++ [[]])
      = s2l "https://e.x/foo/bar/" ∧
    (FixCanonical.build_canonical_for [s2l "foo", s2l "page.html"] (s2l "https://e.x")
      = rstripSlash (s2l "https://e.x") ++ '/' :: interSlash [s2l "foo", s2l "page.html"]) ∧
    rstripSlash (s2l "https://e.x") ++ '/' :: interSlash [s2l "foo", s2l "page.html"]
      = s2l "https://e.x/foo/page.html" :=
  ⟨c4_amended.1 [s2l "foo", s2l "bar", s2l "index.html"] [] (s2l "https://e.x")
      (by decide) (by decide) (by decide) (by decide),
   by decide,
   c4_amended.2 [s2l "foo", s2l "page.html"] (s2l "https://e.x")
      (by decide) (by decide) (by decide) (by decide),
   by decide⟩

/-! ## C9 -/

theorem rfindAux_none (pat : List Char) : ∀ (l : List Char) (k : Nat) (acc : Option Nat),
    (∀ j, beginsWith pat (l.drop j) = false) → rfindAux pat l k acc = acc
  | [], _, _, _ => rfl
  | c :: cs, k, acc, h => by
    have h0 := h 0
    simp only [List.drop_zero] at h0
    simp only [rfindAux, h0, Bool.false_eq_true, if_false]
    exact rfindAux_none pat cs (k + 1) acc (fun j => h (j + 1))

theorem rfindAux_last (pat : List Char) : ∀ (l : List Char) (i k : Nat) (acc : Option Nat),
    beginsWith pat (l.drop i) = true →
    (∀ j, i < j → beginsWith pat (l.drop j) = false) →
    rfindAux pat l k acc = some (k + i)
  | [], i, _, _, h1, h2 => by
    cases pat with
    | nil =>
      have hcon := h2 (i + 1) (by omega)
      simp [beginsWith] at hcon
    | cons p ps => simp [beginsWith] at h1
  | c :: cs, i, k, acc, h1, h2 => by
    cases i with
    | zero =>
      simp only [List.drop_zero] at h1
      simp only [rfindAux, h1, if_true]
      have hrest := rfindAux_none pat cs (k + 1) (some k)
        (fun j => by simpa using h2 (j + 1) (by omega))
      simpa using hrest
    | succ i' =>
      simp only [List.drop_succ_cons] at h1
      have hrec := rfindAux_last pat cs i' (k + 1)
        (if beginsWith pat (c :: cs) = true then some k else acc)
        h1 (fun j hj => by simpa using h2 (j + 1) (by omega))
      simp only [rfindAux]
      rw [show k + (i' + 1) = (k + 1) + i' from by omega]
      exact hrec

theorem rfindSeq_eq_last (pat l : List Char) (i : Nat)
    (h1 : beginsWith pat (l.drop i) = true)
    (h2 : ∀ j, i < j → beginsWith pat (l.drop j) = false) :
    rfindSeq pat l = some i := by
  simpa using rfindAux_last pat l i 0 none h1 h2

theorem rfindSeq_eq_none (pat l : List Char)
    (h : ∀ j, beginsWith pat (l.drop j) = false) :
    rfindSeq pat l = none := rfindAux_none pat l 0 none h

theorem matchHeadCloseAt_nil : FixCanonical.matchHeadCloseAt [] = false := by decide

theorem searchHeadAux_none : ∀ (l : List Char) (k : Nat),
    (∀ j, FixCanonical.matchHeadCloseAt (l.drop j) = false) →
    FixCanonical.searchHeadAux l k = none
  | [], _, _ => rfl
  | c :: cs, k, h => by
    have h0 := h 0
    simp only [List.drop_zero] at h0
    simp only [FixCanonical.searchHeadAux, h0, Bool.false_eq_true, if_false]
    exact searchHeadAux_none cs (k + 1) (fun j => h (j + 1))

theorem searchHeadAux_first : ∀ (l : List Char) (pos k : Nat),
    FixCanonical.matchHeadCloseAt (l.drop pos) = true →
    (∀ j, j < pos → FixCanonical.matchHeadCloseAt (l.drop j) = false) →
    FixCanonical.searchHeadAux l k = some (k + pos)
  | [], pos, _, h1, _ => by
    rw [List.drop_nil] at h1
    exact absurd h1 (by simp [matchHeadCloseAt_nil])
  | c :: cs, pos, k, h1, h2 => by
    cases pos with
    | zero =>
      simp only [List.drop_zero] at h1
      simp [FixCanonical.searchHeadAux, h1]
    | succ p' =>
      have h0 := h2 0 (by omega)
      simp only [List.drop_zero] at h0
      simp only [FixCanonical.searchHeadAux, h0, Bool.false_eq_true, if_false]
      simp only [List.drop_succ_cons] at h1
      have hrec := searchHeadAux_first cs p' (k + 1) h1
        (fun j hj => by simpa using h2 (j + 1) (by omega))
      rw [show k + (p' + 1) = (k + 1) + p' from by omega]
      exact hrec

theorem beginsWith_nil_of_cons (p : Char) (ps : List Char) :
    beginsWith (p :: ps) [] = false := rfl

/-- C9 counterexample: with two `</head>` occurrences (close-tag-like
text earlier in the body), the canonical-link injector inserts before the
FIRST one — `re.search` scans from the start — whereas insertion before
the anchor found from the end backward would land before the second. -/
theorem c9_counterexample :
    FixCanonical.ensure_canonical (s2l "a</head>b</head>") (s2l "https://e.x/p")
      = s2l "a" ++ FixCanonical.canonTag (s2l "https://e.x/p")
          ++ '\n' :: s2l "</head>b</head>"
    ∧ s2l "a" ++ FixCanonical.canonTag (s2l "https://e.x/p")
          ++ '\n' :: s2l "</head>b</head>"
      ≠ s2l "a</head>b" ++ FixCanonical.canonTag (s2l "https://e.x/p")
          ++ '\n' :: s2l "</head>" :=
  ⟨by decide, by decide⟩

/-- C9 (amended): the TRACKING-SNIPPET injector does insert before the
structural close anchor found by searching from the end backward
(`str.rfind` on the lower-cased text, `</head>` preferred over
`</body>`), appending at the very end when neither is found; the
CANONICAL-LINK injector however inserts before the FIRST match of
`</head\s*>` (found by `re.search` from the start), and prepends at the
document start when there is none (hypotheses: no existing instance of
the unit, and the meta-robots repair pass leaves the text unchanged). -/
theorem c9_amended :
    (∀ (text : List Char) (i : Nat),
        beginsWith (s2l "</head>") ((lowerList text).drop i) = true →
        (∀ j, j < (lowerList text).length → i < j →
          beginsWith (s2l "</head>") ((lowerList text).drop j) = false) →
        InjectMetrika.inject text
          = (text.take i ++ '\n' :: InjectMetrika.SNIPPET ++ '\n' :: text.drop i,
             true)) ∧
    (∀ (text : List Char) (i : Nat),
        (∀ j, j < (lowerList text).length →
          beginsWith (s2l "</head>") ((lowerList text).drop j) = false) →
        beginsWith (s2l "</body>") ((lowerList text).drop i) = true →
        (∀ j, j < (lowerList text).length → i < j →
          beginsWith (s2l "</body>") ((lowerList text).drop j) = false) →
        InjectMetrika.inject text
          = (text.take i ++ '\n' :: InjectMetrika.SNIPPET ++ '\n' :: text.drop i,
             true)) ∧
    (∀ text : List Char,
        (∀ j, j < (lowerList text).length →
          beginsWith (s2l "</head>") ((lowerList text).drop j) = false) →
        (∀ j, j < (lowerList text).length →
          beginsWith (s2l "</body>") ((lowerList text).drop j) = false) →
        InjectMetrika.inject text
          = (text ++ '\n' :: InjectMetrika.SNIPPET ++ ['\n'], true)) ∧
    (∀ (html url : List Char) (pos : Nat),
        FixCanonical.removeCanonicals html = html →
        FixCanonical.matchHeadCloseAt (html.drop pos) = true →
        (∀ j, j < pos → FixCanonical.matchHeadCloseAt (html.drop j) = false) →
        FixCanonical.robotsSub (FixCanonical.preRobotsText html url)
          = FixCanonical.preRobotsText html url →
        FixCanonical.ensure_canonical html url
          = html.take pos ++ FixCanonical.canonTag url ++ '\n' :: html.drop pos) ∧
    (∀ html url : List Char,
        FixCanonical.removeCanonicals html = html →
        (∀ j, j < html.length → FixCanonical.matchHeadCloseAt (html.drop j) = false) →
        FixCanonical.robotsSub (FixCanonical.preRobotsText html url)
          = FixCanonical.preRobotsText html url →
        FixCanonical.ensure_canonical html url
          = FixCanonical.canonTag url ++ '\n' :: html) := by
  have hext : ∀ (pat : List Char) (l : List Char), pat ≠ [] →
      (∀ j, j < l.length → beginsWith pat (l.drop j) = false) →
      ∀ j, beginsWith pat (l.drop j) = false := by
    intro pat l hp h j
    by_cases hj : j < l.length
    · exact h j hj
    · rw [List.drop_eq_nil_of_le (by omega)]
      cases pat with
      | nil => exact absurd rfl hp
      | cons p ps => rfl
  have hextM : ∀ l : List Char,
      (∀ j, j < l.length → FixCanonical.matchHeadCloseAt (l.drop j) = false) →
      ∀ j, FixCanonical.matchHeadCloseAt (l.drop j) = false := by
    intro l h j
    by_cases hj : j < l.length
    · exact h j hj
    · rw [List.drop_eq_nil_of_le (by omega)]
      exact matchHeadCloseAt_nil
  refine ⟨fun text i h1 h2 => ?_, fun text i hh h1 h2 => ?_, fun text hh hb => ?_,
          fun html url pos hrm h1 h2 hrb => ?_, fun html url hrm hh hrb => ?_⟩
  · have hfind := rfindSeq_eq_last (s2l "</head>") (lowerList text) i h1
      (fun j hj => by
        by_cases hjl : j < (lowerList text).length
        · exact h2 j hjl hj
        · rw [List.drop_eq_nil_of_le (by omega)]; rfl)
    simp [InjectMetrika.inject, hfind]
  · have hfh := rfindSeq_eq_none (s2l "</head>") (lowerList text)
      (hext _ _ (by decide) hh)
    have hfind := rfindSeq_eq_last (s2l "</body>") (lowerList text) i h1
      (fun j hj => by
        by_cases hjl : j < (lowerList text).length
        · exact h2 j hjl hj
        · rw [List.drop_eq_nil_of_le (by omega)]; rfl)
    simp [InjectMetrika.inject, hfh, hfind]
  · have hfh := rfindSeq_eq_none (s2l "</head>") (lowerList text)
      (hext _ _ (by decide) hh)
    have hfb := rfindSeq_eq_none (s2l "</body>") (lowerList text)
      (hext _ _ (by decide) hb)
    simp [InjectMetrika.inject, hfh, hfb]
  · have hs : FixCanonical.searchHeadClose html = some pos := by
      have := searchHeadAux_first html pos 0 h1 h2
      simpa [FixCanonical.searchHeadClose] using this
    have hpre : FixCanonical.preRobotsText html url
        = html.take pos ++ FixCanonical.canonTag url ++ '\n' :: html.drop pos := by
      simp [FixCanonical.preRobotsText, hrm, hs]
    rw [hpre] at hrb
    simp only [List.append_assoc] at hrb
    simp [FixCanonical.ensure_canonical, hrm, hs, hrb]
  · have hs : FixCanonical.searchHeadClose html = none :=
      searchHeadAux_none html 0 (hextM html hh)
    have hpre : FixCanonical.preRobotsText html url = html := by
      simp [FixCanonical.preRobotsText, hrm, hs]
    rw [hpre] at hrb
    simp [FixCanonical.ensure_canonical, hrm, hs, hrb]

/-- C9 witness: the snippet goes before the LAST `</head>` even when an
earlier `</HEAD>`-like text occurs; with no `</head>` but two `</body>`
occurrences it goes before the LAST `</body>`; the canonical tag goes
before the first (only) `</head>`; fallbacks: append for the snippet,
prepend for the canonical tag. -/
theorem c9_witness :
    (beginsWith (s2l "</head>") ((lowerList (s2l "x</HEAD>y</head>z")).drop 9) = true ∧
      InjectMetrika.inject (s2l "x</HEAD>y</head>z")
        = ((s2l "x</HEAD>y</head>z").take 9 ++ '\n' :: InjectMetrika.SNIPPET
            ++ '\n' :: (s2l "x</HEAD>y</head>z").drop 9, true)) ∧
    (beginsWith (s2l "</body>") ((lowerList (s2l "a</BODY>b</body>c")).drop 9) = true ∧
      InjectMetrika.inject (s2l "a</BODY>b</body>c")
        = ((s2l "a</BODY>b</body>c").take 9 ++ '\n' :: InjectMetrika.SNIPPET
            ++ '\n' :: (s2l "a</BODY>b</body>c").drop 9, true)) ∧
    InjectMetrika.inject (s2l "<p>nothing</p>")
      = (s2l "<p>nothing</p>" ++ '\n' :: InjectMetrika.SNIPPET ++ ['\n'], true) ∧
    FixCanonical.ensure_canonical (s2l "q</head>r") (s2l "https://e.x/")
      = (s2l "q</head>r").take 1 ++ FixCanonical.canonTag (s2l "https://e.x/")
          ++ '\n' :: (s2l "q</head>r").drop 1 ∧
    FixCanonical.ensure_canonical (s2l "no anchor here") (s2l "https://e.x/")
      = FixCanonical.canonTag (s2l "https://e.x/") ++ '\n' :: s2l "no anchor here" :=
  ⟨⟨by decide,
     c9_amended.1 (s2l "x</HEAD>y</head>z") 9 (by decide) (by decide)⟩,
   ⟨by decide,
     c9_amended.2.1 (s2l "a</BODY>b</body>c") 9 (by decide) (by decide) (by decide)⟩,
   c9_amended.2.2.1 (s2l "<p>nothing</p>") (by decide) (by decide),
   c9_amended.2.2.2.1 (s2l "q</head>r") (s2l "https://e.x/") 1 (by decide) (by decide)
     (by decide) (by decide),
   c9_amended.2.2.2.2 (s2l "no anchor here") (s2l "https://e.x/") (by decide) (by decide)
     (by decide)⟩

/-! ## C7 -/

theorem GenSitemap.chunkList_step {α : Type} (cap : Nat) (l : List α) (hc : cap ≠ 0) (hl : l ≠ []) :
    GenSitemap.chunkList cap l = l.take cap :: GenSitemap.chunkList cap (l.drop cap) := by
  rw [GenSitemap.chunkList, dif_neg]
  simp only [Bool.or_eq_true, List.isEmpty_iff, beq_iff_eq, not_or]
  exact ⟨hl, hc⟩

theorem GenSitemap.chunkList_nil {α : Type} (cap : Nat) : GenSitemap.chunkList cap ([] : List α) = [] := by
  rw [GenSitemap.chunkList, dif_pos]
  rfl

theorem c7_chunks {α : Type} (l : List α) (h : l.length = 100050) :
    GenSitemap.chunkList 49000 l
      = [l.take 49000, (l.drop 49000).take 49000, (l.drop 49000).drop 49000] := by
  have h1 : l ≠ [] := by
    intro hc; rw [hc] at h; simp at h
  have hl1 : (l.drop 49000).length = 51050 := by
    simp only [List.length_drop]
    omega
  have h2 : l.drop 49000 ≠ [] := by
    intro hc; rw [hc] at hl1; simp at hl1
  have hl2 : ((l.drop 49000).drop 49000).length = 2050 := by
    simp only [List.length_drop]
    omega
  have h3 : (l.drop 49000).drop 49000 ≠ [] := by
    intro hc; rw [hc] at hl2; simp at hl2
  have h4 : ((l.drop 49000).drop 49000).drop 49000 = [] := by
    apply List.eq_nil_of_length_eq_zero
    simp only [List.length_drop]
    omega
  rw [GenSitemap.chunkList_step _ _ (by omega) h1, GenSitemap.chunkList_step _ _ (by omega) h2,
    GenSitemap.chunkList_step _ _ (by omega) h3, h4, GenSitemap.chunkList_nil,
    List.take_of_length_le (by omega : ((l.drop 49000).drop 49000).length ≤ 49000)]

theorem validW3C_fmt (t : GenSitemap.DT) :
    GenSitemap.validW3C (GenSitemap.fmt_w3c t) = true := by
  have hd : ∀ n : Nat, GenSitemap.isDigitB (GenSitemap.digitChar n) = true := by
    intro n
    unfold GenSitemap.digitChar GenSitemap.isDigitB
    set k := n % 10 with hk
    have h10 : k < 10 := Nat.mod_lt _ (by omega)
    interval_cases k <;> decide
  simp [GenSitemap.fmt_w3c, GenSitemap.pad4, GenSitemap.pad2, GenSitemap.validW3C, hd]

/-- C7: 100050 entries with a page cap of 49000 produce the partitioned
branch with exactly three files `sitemap-1.xml` … `sitemap-3.xml`, whose
pages are the positional slices of the entry list (concatenating them
restores it); the index document references exactly those three files,
each with the run's `now` timestamp, which has the W3C
`YYYY-MM-DDTHH:MM:SSZ` shape. -/
theorem c7_partition (base : List Char) (now : GenSitemap.DT)
    (items : List GenSitemap.SEntry) (h : items.length = 100050) :
    GenSitemap.isParted (GenSitemap.sitemapMain base 49000 now items) = true ∧
    (GenSitemap.partsOf (GenSitemap.sitemapMain base 49000 now items)).map Prod.fst
      = [s2l "sitemap-1.xml", s2l "sitemap-2.xml", s2l "sitemap-3.xml"] ∧
    (GenSitemap.partsOf (GenSitemap.sitemapMain base 49000 now items)).map Prod.snd
      = [items.take 49000, (items.drop 49000).take 49000,
         (items.drop 49000).drop 49000] ∧
    (items.take 49000 ++ ((items.drop 49000).take 49000
        ++ (items.drop 49000).drop 49000)) = items ∧
    GenSitemap.indexLinesOf (GenSitemap.sitemapMain base 49000 now items)
      = GenSitemap.SITEMAP_INDEX_HEAD ::
        (s2l "  <sitemap>" ::
          (s2l "    <loc>" ++ GenSitemap.escapeXml (base ++ '/' :: s2l "sitemap-1.xml")
            ++ s2l "</loc>") ::
          (s2l "    <lastmod>" ++ GenSitemap.fmt_w3c now ++ s2l "</lastmod>") ::
          s2l "  </sitemap>" ::
        s2l "  <sitemap>" ::
          (s2l "    <loc>" ++ GenSitemap.escapeXml (base ++ '/' :: s2l "sitemap-2.xml")
            ++ s2l "</loc>") ::
          (s2l "    <lastmod>" ++ GenSitemap.fmt_w3c now ++ s2l "</lastmod>") ::
          s2l "  </sitemap>" ::
        s2l "  <sitemap>" ::
          (s2l "    <loc>" ++ GenSitemap.escapeXml (base ++ '/' :: s2l "sitemap-3.xml")
            ++ s2l "</loc>") ::
          (s2l "    <lastmod>" ++ GenSitemap.fmt_w3c now ++ s2l "</lastmod>") ::
          s2l "  </sitemap>" :: [GenSitemap.SITEMAP_INDEX_TAIL]) ∧
    GenSitemap.validW3C (GenSitemap.fmt_w3c now) = true := by
  have hnotle : ¬ (items.length ≤ 49000) := by omega
  have hch := c7_chunks items h
  have hn1 : GenSitemap.partName 49000 (0 * 49000) = s2l "sitemap-1.xml" := by decide
  have hn2 : GenSitemap.partName 49000 (1 * 49000) = s2l "sitemap-2.xml" := by decide
  have hn3 : GenSitemap.partName 49000 (2 * 49000) = s2l "sitemap-3.xml" := by decide
  have hmain : GenSitemap.sitemapMain base 49000 now items
      = GenSitemap.SitemapOut.parted
          [(s2l "sitemap-1.xml", items.take 49000),
           (s2l "sitemap-2.xml", (items.drop 49000).take 49000),
           (s2l "sitemap-3.xml", (items.drop 49000).drop 49000)]
          (GenSitemap.sitemapIndexLines base
            [s2l "sitemap-1.xml", s2l "sitemap-2.xml", s2l "sitemap-3.xml"] now) := by
    unfold GenSitemap.sitemapMain
    rw [if_neg hnotle, hch]
    simp only [List.enum, List.enumFrom, List.map_cons, List.map_nil, hn1, hn2, hn3]
  refine ⟨by rw [hmain]; rfl, by rw [hmain]; rfl, by rw [hmain]; rfl, ?_,
    by rw [hmain]; rfl, validW3C_fmt now⟩
  rw [List.take_append_drop, List.take_append_drop]

/-- C7 witness: a concrete run with 100050 entries lands in the
partitioned branch. -/
theorem c7_witness :
    (List.replicate 100050
      ({ segs := [], loc := [], lastmod := [], dt := ⟨0, 0, 0, 0, 0, 0⟩ }
        : GenSitemap.SEntry)).length = 100050 ∧
    GenSitemap.isParted (GenSitemap.sitemapMain [] 49000 ⟨2025, 1, 1, 0, 0, 0⟩
      (List.replicate 100050
        ({ segs := [], loc := [], lastmod := [], dt := ⟨0, 0, 0, 0, 0, 0⟩ }
          : GenSitemap.SEntry))) = true :=
  ⟨List.length_replicate _ _,
   (c7_partition [] ⟨2025, 1, 1, 0, 0, 0⟩ _ (List.length_replicate _ _)).1⟩

/-! ## C8 -/

theorem filter_drop_excluded {α : Type} (p q : α → Bool) (docs : List α)
    (h : ∀ d, q d = false → p d = false) :
    docs.filter p = (docs.filter q).filter p := by
  induction docs with
  | nil => rfl
  | cons d ds ih =>
    by_cases hq : q d = true
    · rw [List.filter_cons, List.filter_cons, hq, if_pos rfl, List.filter_cons]
      rw [ih]
    · have hq' : q d = false := by
        cases hqd : q d
        · rfl
        · exact absurd hqd hq
      have hp := h d hq'
      rw [List.filter_cons, List.filter_cons, hp, hq']
      simpa using ih

theorem googleAlt_begins {n : List Char} (h : GenSitemap.googleAlt n = true) :
    beginsWith (s2l "google") n = true := by
  unfold GenSitemap.googleAlt at h
  simp only [Bool.and_eq_true] at h
  exact h.1.1.1

theorem yandexAlt_begins {n : List Char} (h : GenSitemap.yandexAlt n = true) :
    beginsWith (s2l "yandex_") n = true := by
  unfold GenSitemap.yandexAlt at h
  simp only [Bool.and_eq_true] at h
  exact h.1.1.1

theorem famExcluded_parts {name : List Char} (hf : famExcluded name = true) :
    FixCanonical.nameExcluded name = true ∧
    GenSitemap.excludeFileRe name = true ∧
    GenRss.excludeFileRe name = true := by
  unfold famExcluded at hf
  simp only [Bool.or_eq_true] at hf
  rcases hf with (h4 | hg) | hy
  · exact ⟨by simp [FixCanonical.nameExcluded, h4],
      by simp [GenSitemap.excludeFileRe, h4],
      by simp [GenRss.excludeFileRe, h4]⟩
  · exact ⟨by simp [FixCanonical.nameExcluded, googleAlt_begins hg],
      by simp [GenSitemap.excludeFileRe, hg],
      by simp [GenRss.excludeFileRe, hg]⟩
  · exact ⟨by simp [FixCanonical.nameExcluded, yandexAlt_begins hy],
      by simp [GenSitemap.excludeFileRe, hy],
      by simp [GenRss.excludeFileRe, hy]⟩

/-- C8: a 404 page or search-engine verification file (`404.html`,
`google<alnum>.html`, `yandex_<alnum>.html`, case-insensitively) is (a)
given no canonical URL by the canonicalizer and left untouched by the
canonical-link pass, and (b) contributes no sitemap entry and no RSS
item: both collectors return the same output whether or not documents of
that name are present at all. -/
theorem c8_exclusion (name : List Char) (hf : famExcluded name = true) :
    (∀ (segs : List (List Char)) (base : List Char), lastSeg segs = name →
        FixCanonical.build_canonical_for segs base = []) ∧
    (∀ (segs : List (List Char)) (base text : List Char), lastSeg segs = name →
        FixCanonical.processFile base (segs, text) = text) ∧
    GenSitemap.excludeFileRe name = true ∧
    GenRss.excludeFileRe name = true ∧
    (∀ (base : List Char) (lm : GenSitemap.Doc → GenSitemap.DT)
        (docs : List GenSitemap.Doc),
        GenSitemap.collect base lm docs
          = GenSitemap.collect base lm
              (docs.filter fun d => !(lastSeg d.segs == name))) ∧
    (∀ (base : List Char) (gt gd : List Char → List Char)
        (lm : GenSitemap.Doc → GenSitemap.DT) (mx : Nat)
        (docs : List GenSitemap.Doc),
        GenRss.collect_items base gt gd lm mx docs
          = GenRss.collect_items base gt gd lm mx
              (docs.filter fun d => !(lastSeg d.segs == name))) := by
  obtain ⟨hfc, hsm, hrss⟩ := famExcluded_parts hf
  refine ⟨fun segs base hseg => ?_, fun segs base text hseg => ?_, hsm, hrss,
    fun base lm docs => ?_, fun base gt gd lm mx docs => ?_⟩
  · simp [FixCanonical.build_canonical_for, hseg, hfc]
  · have hb : FixCanonical.build_canonical_for segs base = [] := by
      simp [FixCanonical.build_canonical_for, hseg, hfc]
    simp [FixCanonical.processFile, hb]
  · unfold GenSitemap.collect
    rw [filter_drop_excluded
      (fun d => !GenSitemap.dirExcluded d.segs
        && !GenSitemap.excludeFileRe (lastSeg d.segs))
      (fun d => !(lastSeg d.segs == name)) docs ?_]
    intro d hq
    have hq' : lastSeg d.segs = name := by simpa using hq
    simp [hq', hsm]
  · unfold GenRss.collect_items
    rw [filter_drop_excluded
      (fun d => !GenSitemap.dirExcluded d.segs
        && !GenRss.excludeFileRe (lastSeg d.segs) && !(gt d.text).isEmpty)
      (fun d => !(lastSeg d.segs == name)) docs ?_]
    intro d hq
    have hq' : lastSeg d.segs = name := by simpa using hq
    simp [hq', hrss]

/-- C8 witness: `google1234abc.html` is excluded everywhere. -/
theorem c8_witness :
    famExcluded (s2l "google1234abc.html") = true ∧
    FixCanonical.build_canonical_for [s2l "google1234abc.html"] (s2l "https://e.x")
      = [] ∧
    FixCanonical.processFile (s2l "https://e.x")
        ([s2l "google1234abc.html"], s2l "<head></head>")
      = s2l "<head></head>" ∧
    GenSitemap.excludeFileRe (s2l "google1234abc.html") = true ∧
    GenRss.excludeFileRe (s2l "google1234abc.html") = true :=
  ⟨by decide,
   (c8_exclusion (s2l "google1234abc.html") (by decide)).1
     [s2l "google1234abc.html"] (s2l "https://e.x") (by decide),
   (c8_exclusion (s2l "google1234abc.html") (by decide)).2.1
     [s2l "google1234abc.html"] (s2l "https://e.x") (s2l "<head></head>") (by decide),
   (c8_exclusion (s2l "google1234abc.html") (by decide)).2.2.1,
   (c8_exclusion (s2l "google1234abc.html") (by decide)).2.2.2.1⟩

/-! ## C2 -/

theorem bwci_append_of {p x : List Char} (y : List Char)
    (h : beginsWithCI p x = true) : beginsWithCI p (x ++ y) = true := by
  induction p generalizing x with
  | nil => rfl
  | cons a as ih =>
    cases x with
    | nil => simp [beginsWithCI] at h
    | cons c cs =>
      simp only [List.cons_append, beginsWithCI, Bool.and_eq_true] at h ⊢
      exact ⟨h.1, ih h.2⟩

theorem bwci_of_append {p x y : List Char}
    (h : beginsWithCI p (x ++ y) = true) (hlen : p.length ≤ x.length) :
    beginsWithCI p x = true := by
  induction p generalizing x with
  | nil => rfl
  | cons a as ih =>
    cases x with
    | nil => simp at hlen
    | cons c cs =>
      simp only [List.cons_append, beginsWithCI, Bool.and_eq_true] at h ⊢
      exact ⟨h.1, ih h.2 (by simpa using hlen)⟩

theorem bwci_drop {p x y : List Char}
    (h : beginsWithCI p (x ++ y) = true) (hlen : x.length < p.length) :
    beginsWithCI (p.drop x.length) y = true := by
  induction x generalizing p with
  | nil => simpa using h
  | cons c cs ih =>
    cases p with
    | nil => simp at hlen
    | cons a as =>
      simp only [List.cons_append, beginsWithCI, Bool.and_eq_true] at h
      simpa using ih h.2 (by simpa using hlen)

theorem bwci_false_head {a c : Char} (ps : List Char) (cs : List Char)
    (h : (a == lowerChar c) = false) : beginsWithCI (a :: ps) (c :: cs) = false := by
  simp [beginsWithCI, h]

theorem drop_append_le {α : Type} {n : Nat} {x : List α} (y : List α)
    (h : n ≤ x.length) : (x ++ y).drop n = x.drop n ++ y := by
  induction x generalizing n with
  | nil =>
    have : n = 0 := by simpa using h
    simp [this]
  | cons c cs ih =>
    cases n with
    | zero => simp
    | succ n' =>
      simp only [List.cons_append, List.drop_succ_cons]
      exact ih (by simpa using h)

theorem splitAtGt_concat {m : List Char} (r : List Char) (hm : '>' ∉ m) :
    FixCanonical.splitAtGt (m ++ '>' :: r) = some (m, r) := by
  induction m with
  | nil => simp [FixCanonical.splitAtGt]
  | cons c cs ih =>
    have hc : ¬ c = '>' := fun hh => hm (by simp [hh])
    have ih' := ih (fun hmem => hm (List.mem_cons_of_mem c hmem))
    simp [FixCanonical.splitAtGt, hc, ih']

theorem gt_mem_decomp : ∀ l : List Char, '>' ∈ l →
    ∃ m r, l = m ++ '>' :: r ∧ '>' ∉ m
  | [], h => absurd h (by simp)
  | c :: cs, h => by
    by_cases hc : c = '>'
    · exact ⟨[], cs, by simp [hc], by simp⟩
    · have hcs : '>' ∈ cs := by
        rcases List.mem_cons.mp h with h1 | h2
        · exact absurd h1.symm hc
        · exact h2
      obtain ⟨m, r, hmr, hnm⟩ := gt_mem_decomp cs hcs
      refine ⟨c :: m, r, by simp [hmr], ?_⟩
      intro hmem
      rcases List.mem_cons.mp hmem with h1 | h2
      · exact hc h1.symm
      · exact hnm h2

theorem canonTag_eq (url : List Char) :
    FixCanonical.canonTag url
      = s2l "<link rel=\"canonical\" href=\"" ++ url ++ '"' :: ['>'] := rfl

theorem canonTag_length (url : List Char) :
    (FixCanonical.canonTag url).length = url.length + 30 := by
  rw [canonTag_eq]
  have h28 : (s2l "<link rel=\"canonical\" href=\"").length = 28 := by decide
  simp [List.length_append, h28]
  omega

theorem containsRel_of_head {l : List Char}
    (h : FixCanonical.relPatAt l = true) : FixCanonical.containsRel l = true := by
  cases l with
  | nil => exact h
  | cons c cs => simp [FixCanonical.containsRel, h]

theorem relPatAt_concrete (X : List Char) :
    FixCanonical.relPatAt (s2l "rel=\"canonical\"" ++ X) = true := by
  unfold FixCanonical.relPatAt
  have hb1 : beginsWithCI (s2l "rel=") (s2l "rel=\"canonical\"" ++ X) = true :=
    bwci_append_of X (by decide)
  have hd4 : (s2l "rel=\"canonical\"" ++ X).drop 4 = s2l "\"canonical\"" ++ X := by
    rw [drop_append_le X (by decide)]
    rfl
  have hcons : (s2l "\"canonical\"" : List Char) ++ X
      = '"' :: (s2l "canonical\"" ++ X) := rfl
  rw [hb1, hd4, hcons]
  have hb2 : beginsWithCI (s2l "canonical") (s2l "canonical\"" ++ X) = true :=
    bwci_append_of X (by decide)
  have hd9 : (s2l "canonical\"" ++ X).drop 9 = '"' :: X := by
    rw [drop_append_le X (by decide)]
    rfl
  simp [hb2, hd9, isQuoteCh]

theorem match_tag {url : List Char} (rest : List Char) (hu : '>' ∉ url) :
    FixCanonical.matchCanonLen (FixCanonical.canonTag url ++ rest)
      = some ((FixCanonical.canonTag url).length) := by
  have hshape : FixCanonical.canonTag url ++ rest
      = s2l "<link rel=\"canonical\" href=\"" ++ (url ++ '"' :: '>' :: rest) := by
    rw [canonTag_eq]
    simp
  have hbw : beginsWithCI (s2l "<link")
      (FixCanonical.canonTag url ++ rest) = true := by
    rw [hshape]
    exact bwci_append_of _ (by decide)
  have hd5 : (FixCanonical.canonTag url ++ rest).drop 5
      = s2l " rel=\"canonical\" href=\"" ++ (url ++ '"' :: '>' :: rest) := by
    rw [hshape, drop_append_le _ (by decide)]
    rfl
  have hregroup : (s2l " rel=\"canonical\" href=\"" : List Char)
        ++ (url ++ '"' :: '>' :: rest)
      = (s2l " rel=\"canonical\" href=\"" ++ url ++ ['"']) ++ '>' :: rest := by
    simp
  have hnm : '>' ∉ s2l " rel=\"canonical\" href=\"" ++ url ++ ['"'] := by
    intro hmem
    rcases List.mem_append.mp hmem with hmem2 | hq
    · rcases List.mem_append.mp hmem2 with hpre | hud
      · exact absurd hpre (by decide)
      · exact hu hud
    · exact absurd hq (by decide)
  have hsp : FixCanonical.splitAtGt ((FixCanonical.canonTag url ++ rest).drop 5)
      = some (s2l " rel=\"canonical\" href=\"" ++ url ++ ['"'], rest) := by
    rw [hd5, hregroup]
    exact splitAtGt_concat rest hnm
  have hmidcons : (s2l " rel=\"canonical\" href=\"" : List Char) ++ url ++ ['"']
      = ' ' :: (s2l "rel=\"canonical\"" ++ (s2l " href=\"" ++ url ++ ['"'])) := by
    rw [show (s2l " rel=\"canonical\" href=\"" : List Char)
      = ' ' :: (s2l "rel=\"canonical\"" ++ s2l " href=\"") from by decide]
    simp
  have hrel : FixCanonical.containsRelAfterOne
      (s2l " rel=\"canonical\" href=\"" ++ url ++ ['"']) = true := by
    rw [hmidcons]
    exact containsRel_of_head (relPatAt_concrete _)
  have hlen : 6 + (s2l " rel=\"canonical\" href=\"" ++ url ++ ['"']).length
      = (FixCanonical.canonTag url).length := by
    rw [canonTag_length]
    have h23 : (s2l " rel=\"canonical\" href=\"").length = 23 := by decide
    simp [List.length_append, h23]
    omega
  unfold FixCanonical.matchCanonLen
  rw [hbw, hsp, if_pos rfl]
  show (if FixCanonical.containsRelAfterOne
      (s2l " rel=\"canonical\" href=\"" ++ url ++ ['"']) = true
    then some (6 + (s2l " rel=\"canonical\" href=\"" ++ url ++ ['"']).length)
    else none) = some (FixCanonical.canonTag url).length
  rw [hrel, if_pos rfl, hlen]

theorem countAux_zero_of_nomatch : ∀ (f : Nat) (l : List Char),
    (∀ i, FixCanonical.matchCanonLen (l.drop i) = none) →
    FixCanonical.countCanonAux f l = 0
  | 0, _, _ => rfl
  | f + 1, l, h => by
    have h0 := h 0
    simp only [List.drop_zero] at h0
    cases l with
    | nil => simp [FixCanonical.countCanonAux, h0]
    | cons c cs =>
      simp only [FixCanonical.countCanonAux, h0]
      exact countAux_zero_of_nomatch f cs
        (fun i => by simpa using h (i + 1))

theorem matchCanonLen_nil : FixCanonical.matchCanonLen [] = none := by decide

theorem nomatch_of_count_zero : ∀ (f : Nat) (l : List Char), l.length ≤ f →
    FixCanonical.countCanonAux f l = 0 →
    ∀ i, FixCanonical.matchCanonLen (l.drop i) = none
  | 0, l, hl, _, i => by
    have hnil : l = [] := List.eq_nil_of_length_eq_zero (by omega)
    subst hnil
    rw [List.drop_nil]
    exact matchCanonLen_nil
  | f + 1, l, hl, hc, i => by
    cases hm : FixCanonical.matchCanonLen l with
    | some n =>
      simp only [FixCanonical.countCanonAux, hm] at hc
      omega
    | none =>
      cases l with
      | nil =>
        rw [List.drop_nil]
        exact matchCanonLen_nil
      | cons c cs =>
        cases i with
        | zero => simpa using hm
        | succ i' =>
          simp only [FixCanonical.countCanonAux, hm] at hc
          have := nomatch_of_count_zero f cs (by simpa using hl) hc i'
          simpa using this

theorem match_combined {L B url : List Char} {n : Nat}
    (hL : L ≠ [])
    (hu : '>' ∉ url)
    (h0 : FixCanonical.matchCanonLen (L ++ B) = none)
    (hm : FixCanonical.matchCanonLen
        (L ++ (FixCanonical.canonTag url ++ '\n' :: B)) = some n) :
    n = L.length + (FixCanonical.canonTag url).length := by
  have hbw : beginsWithCI (s2l "<link")
      (L ++ (FixCanonical.canonTag url ++ '\n' :: B)) = true := by
    by_contra hc
    have hcf := Bool.eq_false_iff.mpr hc
    unfold FixCanonical.matchCanonLen at hm
    rw [hcf] at hm
    simp at hm
  by_cases hlen5 : 5 ≤ L.length
  · have hsplit : L.take 5 ++ L.drop 5 = L := List.take_append_drop 5 L
    have hlen5' : (L.take 5).length = 5 := by
      simp [List.length_take]
      omega
    have hbw5 : beginsWithCI (s2l "<link") (L.take 5) = true := by
      apply bwci_of_append
        (y := L.drop 5 ++ (FixCanonical.canonTag url ++ '\n' :: B))
      · rw [← List.append_assoc, hsplit]
        exact hbw
      · rw [hlen5']
        decide
    have hd5 : (L ++ (FixCanonical.canonTag url ++ '\n' :: B)).drop 5
        = L.drop 5 ++ (FixCanonical.canonTag url ++ '\n' :: B) :=
      drop_append_le _ hlen5
    have hd5' : (L ++ B).drop 5 = L.drop 5 ++ B := drop_append_le _ hlen5
    by_cases hgt : '>' ∈ L.drop 5
    · exfalso
      obtain ⟨m1, r1, hm1, hnm1⟩ := gt_mem_decomp _ hgt
      have hsp : FixCanonical.splitAtGt
          ((L ++ (FixCanonical.canonTag url ++ '\n' :: B)).drop 5)
          = some (m1, r1 ++ (FixCanonical.canonTag url ++ '\n' :: B)) := by
        rw [hd5, hm1]
        rw [show (m1 ++ '>' :: r1) ++ (FixCanonical.canonTag url ++ '\n' :: B)
            = m1 ++ '>' :: (r1 ++ (FixCanonical.canonTag url ++ '\n' :: B))
          from by simp]
        exact splitAtGt_concat _ hnm1
      unfold FixCanonical.matchCanonLen at hm
      rw [hbw, if_pos rfl, hsp] at hm
      replace hm : (if FixCanonical.containsRelAfterOne m1 = true
          then some (6 + m1.length) else none) = some n := hm
      have hrel : FixCanonical.containsRelAfterOne m1 = true := by
        by_contra hrc
        rw [if_neg hrc] at hm
        simp at hm
      have hbwLB : beginsWithCI (s2l "<link") (L ++ B) = true := by
        have hh := bwci_append_of (y := L.drop 5 ++ B) hbw5
        rw [← List.append_assoc, hsplit] at hh
        exact hh
      have hspLB : FixCanonical.splitAtGt ((L ++ B).drop 5)
          = some (m1, r1 ++ B) := by
        rw [hd5', hm1]
        rw [show (m1 ++ '>' :: r1) ++ B = m1 ++ '>' :: (r1 ++ B) from by simp]
        exact splitAtGt_concat _ hnm1
      unfold FixCanonical.matchCanonLen at h0
      rw [hbwLB, if_pos rfl, hspLB] at h0
      replace h0 : (if FixCanonical.containsRelAfterOne m1 = true
          then some (6 + m1.length) else none) = none := h0
      rw [if_pos hrel] at h0
      simp at h0
    · have hmid : (L ++ (FixCanonical.canonTag url ++ '\n' :: B)).drop 5
          = (L.drop 5 ++ (s2l "<link rel=\"canonical\" href=\"" ++ url ++ ['"']))
            ++ '>' :: ('\n' :: B) := by
        rw [hd5, canonTag_eq]
        simp
      have hnm : '>' ∉ L.drop 5
          ++ (s2l "<link rel=\"canonical\" href=\"" ++ url ++ ['"']) := by
        intro hmem
        rcases List.mem_append.mp hmem with h1 | h2
        · exact hgt h1
        · rcases List.mem_append.mp h2 with h3 | h4
          · rcases List.mem_append.mp h3 with h5 | h6
            · exact absurd h5 (by decide)
            · exact hu h6
          · exact absurd h4 (by decide)
      have hsp : FixCanonical.splitAtGt
          ((L ++ (FixCanonical.canonTag url ++ '\n' :: B)).drop 5)
          = some (L.drop 5
              ++ (s2l "<link rel=\"canonical\" href=\"" ++ url ++ ['"']),
            '\n' :: B) := by
        rw [hmid]
        exact splitAtGt_concat _ hnm
      unfold FixCanonical.matchCanonLen at hm
      rw [hbw, if_pos rfl, hsp] at hm
      replace hm : (if FixCanonical.containsRelAfterOne
          (L.drop 5 ++ (s2l "<link rel=\"canonical\" href=\"" ++ url ++ ['"'])) = true
          then some (6 + (L.drop 5
            ++ (s2l "<link rel=\"canonical\" href=\"" ++ url ++ ['"'])).length)
          else none) = some n := hm
      have hrel : FixCanonical.containsRelAfterOne
          (L.drop 5 ++ (s2l "<link rel=\"canonical\" href=\"" ++ url ++ ['"']))
          = true := by
        by_contra hrc
        rw [if_neg hrc] at hm
        simp at hm
      rw [if_pos hrel] at hm
      have hn := Option.some.inj hm
      have h28 : (s2l "<link rel=\"canonical\" href=\"").length = 28 := by decide
      have hlenmid : (L.drop 5
          ++ (s2l "<link rel=\"canonical\" href=\"" ++ url ++ ['"'])).length
          = L.length - 5 + (29 + url.length) := by
        simp only [List.length_append, List.length_drop, List.length_cons,
          List.length_nil, h28]
        omega
      rw [hlenmid] at hn
      rw [canonTag_length]
      omega
  · exfalso
    have h1L : 1 ≤ L.length := by
      cases L with
      | nil => exact absurd rfl hL
      | cons _ _ => simp
    have hd := bwci_drop (x := L) (y := FixCanonical.canonTag url ++ '\n' :: B)
      hbw (by rw [show (s2l "<link").length = 5 from by decide]; omega)
    have hc : FixCanonical.canonTag url ++ '\n' :: B
        = '<' :: (s2l "link rel=\"canonical\" href=\""
            ++ (url ++ '"' :: '>' :: '\n' :: B)) := by
      rw [canonTag_eq]
      rw [show (s2l "<link rel=\"canonical\" href=\"" : List Char)
          = '<' :: s2l "link rel=\"canonical\" href=\"" from rfl]
      simp
    rw [hc] at hd
    have hcases : L.length = 1 ∨ L.length = 2 ∨ L.length = 3 ∨ L.length = 4 := by
      omega
    rcases hcases with h | h | h | h <;> rw [h] at hd
    · rw [show (s2l "<link").drop 1 = 'l' :: s2l "ink" from by decide,
        bwci_false_head _ _ (by decide)] at hd
      simp at hd
    · rw [show (s2l "<link").drop 2 = 'i' :: s2l "nk" from by decide,
        bwci_false_head _ _ (by decide)] at hd
      simp at hd
    · rw [show (s2l "<link").drop 3 = 'n' :: s2l "k" from by decide,
        bwci_false_head _ _ (by decide)] at hd
      simp at hd
    · rw [show (s2l "<link").drop 4 = 'k' :: s2l "" from by decide,
        bwci_false_head _ _ (by decide)] at hd
      simp at hd

theorem matchCanon_nl (B : List Char) :
    FixCanonical.matchCanonLen ('\n' :: B) = none := by
  unfold FixCanonical.matchCanonLen
  rw [show (s2l "<link" : List Char) = '<' :: s2l "link" from rfl,
    bwci_false_head _ _ (by decide)]
  simp

theorem count_nl (B : List Char) (f : Nat)
    (hB : ∀ i, FixCanonical.matchCanonLen (B.drop i) = none) :
    FixCanonical.countCanonAux f ('\n' :: B) = 0 := by
  apply countAux_zero_of_nomatch
  intro i
  cases i with
  | zero => simpa using matchCanon_nl B
  | succ i' => simpa using hB i'

theorem drop_len_append {α : Type} (x y : List α) : (x ++ y).drop x.length = y := by
  rw [drop_append_le y le_rfl, List.drop_length]
  rfl

theorem drop_append_plus {α : Type} {x : List α} (y : List α) (i : Nat) :
    (x ++ y).drop (x.length + i) = y.drop i := by
  induction x with
  | nil => simp
  | cons c cs ih =>
    have harr : (c :: cs).length + i = (cs.length + i) + 1 := by
      simp [List.length_cons]
      omega
    rw [harr, List.cons_append, List.drop_succ_cons]
    exact ih

theorem countOne (A : List Char) : ∀ (B url : List Char) (f : Nat),
    (A ++ (FixCanonical.canonTag url ++ '\n' :: B)).length ≤ f →
    (∀ i, FixCanonical.matchCanonLen ((A ++ B).drop i) = none) →
    '>' ∉ url →
    FixCanonical.countCanonAux f (A ++ (FixCanonical.canonTag url ++ '\n' :: B))
      = 1 := by
  induction A with
  | nil =>
    intro B url f hf hno hu
    simp only [List.nil_append] at hf ⊢
    cases f with
    | zero =>
      exfalso
      have hlen := canonTag_length url
      simp only [List.length_append, List.length_cons, hlen] at hf
      omega
    | succ f' =>
      have hmt := match_tag ('\n' :: B) hu
      simp only [FixCanonical.countCanonAux, hmt]
      rw [drop_len_append]
      rw [count_nl B f' (fun i => by simpa using hno i)]
  | cons a A' ih =>
    intro B url f hf hno hu
    cases f with
    | zero =>
      exfalso
      simp only [List.length_append, List.length_cons] at hf
      omega
    | succ f' =>
      cases hm : FixCanonical.matchCanonLen
          ((a :: A') ++ (FixCanonical.canonTag url ++ '\n' :: B)) with
      | none =>
        have hm' : FixCanonical.matchCanonLen
            (a :: (A' ++ (FixCanonical.canonTag url ++ '\n' :: B))) = none := by
          simpa using hm
        have hstep : FixCanonical.countCanonAux (f' + 1)
            ((a :: A') ++ (FixCanonical.canonTag url ++ '\n' :: B))
            = FixCanonical.countCanonAux f'
                (A' ++ (FixCanonical.canonTag url ++ '\n' :: B)) := by
          rw [List.cons_append]
          simp only [FixCanonical.countCanonAux, hm']
        rw [hstep]
        apply ih B url f' ?_ ?_ hu
        · simp only [List.length_append, List.length_cons] at hf ⊢
          omega
        · intro i
          have := hno (i + 1)
          simpa using this
      | some n =>
        have h00 : FixCanonical.matchCanonLen ((a :: A') ++ B) = none := by
          have := hno 0
          simpa using this
        have hn := match_combined (by simp : (a :: A') ≠ []) hu h00 hm
        have hdrop : ((a :: A') ++ (FixCanonical.canonTag url ++ '\n' :: B)).drop n
            = '\n' :: B := by
          rw [hn,
            show (a :: A') ++ (FixCanonical.canonTag url ++ '\n' :: B)
              = ((a :: A') ++ FixCanonical.canonTag url) ++ '\n' :: B
              from by simp,
            show (a :: A').length + (FixCanonical.canonTag url).length
              = ((a :: A') ++ FixCanonical.canonTag url).length
              from by simp only [List.length_append, List.length_cons]]
          exact drop_len_append _ _
        have hm' : FixCanonical.matchCanonLen
            (a :: (A' ++ (FixCanonical.canonTag url ++ '\n' :: B))) = some n := by
          simpa using hm
        have hB : ∀ i, FixCanonical.matchCanonLen (B.drop i) = none := by
          intro i
          have := hno ((a :: A').length + i)
          rwa [drop_append_plus B i] at this
        have hstep : FixCanonical.countCanonAux (f' + 1)
            ((a :: A') ++ (FixCanonical.canonTag url ++ '\n' :: B))
            = 1 + FixCanonical.countCanonAux f'
                (((a :: A') ++ (FixCanonical.canonTag url ++ '\n' :: B)).drop n) := by
          rw [List.cons_append]
          simp only [FixCanonical.countCanonAux, hm']
        rw [hstep, hdrop, count_nl B f' hB]

/-- C2 counterexample: stripping the pre-existing canonical links can
splice surrounding fragments into a NEW canonical-link tag (`re.sub`
never rescans its own output), so this document ends up with TWO
canonical-link matches after injection, not one. -/
theorem c2_counterexample :
    FixCanonical.countCanon
      (FixCanonical.ensure_canonical
        (s2l "<li<link rel=\"canonical\">nk rel=\"canonical\" href=\"x\"></head>")
        (s2l "https://e.x/p")) = 2 := by decide

/-- C2 (amended): provided the strip pass really leaves no canonical-link
match (the splice counterexample above is the only way it can fail), the
resolved URL contains no `>`, and the meta-robots repair leaves the text
unchanged, the produced document contains exactly one canonical-link
match, and the canonical rendering for the URL occurs in it. -/
theorem c2_amended (html url : List Char)
    (h0 : FixCanonical.countCanon (FixCanonical.removeCanonicals html) = 0)
    (hu : '>' ∉ url)
    (hr : FixCanonical.robotsSub (FixCanonical.preRobotsText html url)
            = FixCanonical.preRobotsText html url) :
    FixCanonical.countCanon (FixCanonical.ensure_canonical html url) = 1 ∧
    containsSeq (FixCanonical.canonTag url)
      (FixCanonical.ensure_canonical html url) = true := by
  have hno : ∀ i, FixCanonical.matchCanonLen
      ((FixCanonical.removeCanonicals html).drop i) = none :=
    nomatch_of_count_zero (FixCanonical.removeCanonicals html).length _ le_rfl h0
  cases hs : FixCanonical.searchHeadClose (FixCanonical.removeCanonicals html) with
  | some pos =>
    have hpre : FixCanonical.preRobotsText html url
        = (FixCanonical.removeCanonicals html).take pos
          ++ (FixCanonical.canonTag url
            ++ '\n' :: (FixCanonical.removeCanonicals html).drop pos) := by
      show (match FixCanonical.searchHeadClose (FixCanonical.removeCanonicals html) with
        | some p => (FixCanonical.removeCanonicals html).take p
            ++ FixCanonical.canonTag url
            ++ '\n' :: (FixCanonical.removeCanonicals html).drop p
        | none => FixCanonical.removeCanonicals html)
        = (FixCanonical.removeCanonicals html).take pos
          ++ (FixCanonical.canonTag url
            ++ '\n' :: (FixCanonical.removeCanonicals html).drop pos)
      rw [hs]
      simp [List.append_assoc]
    have hens : FixCanonical.ensure_canonical html url
        = (FixCanonical.removeCanonicals html).take pos
          ++ (FixCanonical.canonTag url
            ++ '\n' :: (FixCanonical.removeCanonicals html).drop pos) := by
      show (match FixCanonical.searchHeadClose (FixCanonical.removeCanonicals html) with
        | some p => FixCanonical.robotsSub ((FixCanonical.removeCanonicals html).take p
            ++ FixCanonical.canonTag url
            ++ '\n' :: (FixCanonical.removeCanonicals html).drop p)
        | none => FixCanonical.canonTag url
            ++ '\n' :: FixCanonical.robotsSub (FixCanonical.removeCanonicals html))
        = (FixCanonical.removeCanonicals html).take pos
          ++ (FixCanonical.canonTag url
            ++ '\n' :: (FixCanonical.removeCanonicals html).drop pos)
      rw [hs]
      show FixCanonical.robotsSub ((FixCanonical.removeCanonicals html).take pos
          ++ FixCanonical.canonTag url
          ++ '\n' :: (FixCanonical.removeCanonicals html).drop pos)
        = (FixCanonical.removeCanonicals html).take pos
          ++ (FixCanonical.canonTag url
            ++ '\n' :: (FixCanonical.removeCanonicals html).drop pos)
      rw [hpre] at hr
      rw [List.append_assoc]
      exact hr
    have hnoAB : ∀ i, FixCanonical.matchCanonLen
        (((FixCanonical.removeCanonicals html).take pos
          ++ (FixCanonical.removeCanonicals html).drop pos).drop i) = none := by
      intro i
      rw [List.take_append_drop]
      exact hno i
    constructor
    · rw [hens]
      unfold FixCanonical.countCanon
      exact countOne _ _ _ _ le_rfl hnoAB hu
    · rw [hens]
      have := containsSeq_of_append (FixCanonical.canonTag url)
        ((FixCanonical.removeCanonicals html).take pos)
        ('\n' :: (FixCanonical.removeCanonicals html).drop pos)
      simpa using this
  | none =>
    have hpre : FixCanonical.preRobotsText html url
        = FixCanonical.removeCanonicals html := by
      show (match FixCanonical.searchHeadClose (FixCanonical.removeCanonicals html) with
        | some p => (FixCanonical.removeCanonicals html).take p
            ++ FixCanonical.canonTag url
            ++ '\n' :: (FixCanonical.removeCanonicals html).drop p
        | none => FixCanonical.removeCanonicals html)
        = FixCanonical.removeCanonicals html
      rw [hs]
    have hens : FixCanonical.ensure_canonical html url
        = FixCanonical.canonTag url
          ++ '\n' :: FixCanonical.removeCanonicals html := by
      show (match FixCanonical.searchHeadClose (FixCanonical.removeCanonicals html) with
        | some p => FixCanonical.robotsSub ((FixCanonical.removeCanonicals html).take p
            ++ FixCanonical.canonTag url
            ++ '\n' :: (FixCanonical.removeCanonicals html).drop p)
        | none => FixCanonical.canonTag url
            ++ '\n' :: FixCanonical.robotsSub (FixCanonical.removeCanonicals html))
        = FixCanonical.canonTag url
          ++ '\n' :: FixCanonical.removeCanonicals html
      rw [hs]
      show FixCanonical.canonTag url
          ++ '\n' :: FixCanonical.robotsSub (FixCanonical.removeCanonicals html)
        = FixCanonical.canonTag url
          ++ '\n' :: FixCanonical.removeCanonicals html
      rw [hpre] at hr
      rw [hr]
    constructor
    · rw [hens]
      unfold FixCanonical.countCanon
      have := countOne [] (FixCanonical.removeCanonicals html) url
        (FixCanonical.canonTag url
          ++ '\n' :: FixCanonical.removeCanonicals html).length
        (by simp) (fun i => by simpa using hno i) hu
      simpa using this
    · have := containsSeq_of_append (FixCanonical.canonTag url) []
        ('\n' :: FixCanonical.removeCanonicals html)
      rw [hens]
      simpa using this

/-- C2 witness: a clean document gets exactly one canonical-link tag. -/
theorem c2_witness :
    FixCanonical.countCanon
        (FixCanonical.removeCanonicals (s2l "<p>hi</p></head>tail")) = 0 ∧
    '>' ∉ s2l "https://e.x/a" ∧
    FixCanonical.robotsSub
        (FixCanonical.preRobotsText (s2l "<p>hi</p></head>tail") (s2l "https://e.x/a"))
      = FixCanonical.preRobotsText (s2l "<p>hi</p></head>tail") (s2l "https://e.x/a") ∧
    FixCanonical.countCanon
        (FixCanonical.ensure_canonical (s2l "<p>hi</p></head>tail")
          (s2l "https://e.x/a")) = 1 :=
  ⟨by decide, by decide, by decide,
   (c2_amended (s2l "<p>hi</p></head>tail") (s2l "https://e.x/a")
     (by decide) (by decide) (by decide)).1⟩
